import Mathlib

-- Verification of the Rush Hour solver (rush_hour.py).
--
-- The program is embedded shallowly:
--  * Python `namedtuple Car` becomes the structure `Car`; the dynamically
--    typed `direction` field is modelled by a three-valued `Direction`, whose
--    constructor `OTHER` stands for any Python value other than the two enum
--    members `Direction.HORIZONTAL` / `Direction.VERTICAL`.
--  * Python tuples of cars become `List Car`; machine integers are `Int`.
--  * Python list indexing (negative indices wrap, out-of-range raises
--    `IndexError`) is modelled by `pyIdx` / `pyGet` / `pySet`; fallible code
--    returns `Except Unit`.
--  * The generator `possible_moves` is consumed eagerly by the solver, so it
--    is modelled as the `Except`-valued list of all yielded successors, in
--    yield order; a `raise` anywhere during iteration makes the whole run
--    fail, which the model reflects by the `Except.error` result.
--  * `run` communicates its findings only through `logging`; the model
--    returns the list of lines that `logging.info` would emit
--    (`RunOutcome.finished log`), `RunOutcome.raised` for an escaped
--    exception, and `Option` fuel to make the loop structurally recursive.
--  * `read_setup` is modelled with the CSV rows already split into fields and
--    the numeric fields already converted (`int()` parsing is out of scope);
--    the orientation-code dispatch, the only validation the function
--    performs, is modelled exactly.

namespace RushHour

/-- Direction models the Python `Direction` enum together with the
possibility, inherent in a dynamically typed record field, that the field
holds some other value (`OTHER`). -/
inductive Direction where
  | HORIZONTAL
  | VERTICAL
  | OTHER
  deriving DecidableEq, Repr

/-- Car mirrors `Car = namedtuple("Car", ["name", "x", "y", "size", "direction"])`. -/
structure Car where
  name : String
  x : Int
  y : Int
  size : Int
  direction : Direction
  deriving DecidableEq, Repr

/-- A board state is the tuple of cars, in tuple order. -/
abbrev State := List Car

def BOARD_SIZE : Int := 6

def EMPTY_CELL : String := " "

/-- ENDPOINT mirrors `ENDPOINT = Car(name="r", x=2, y=4, size=2, direction=Direction.HORIZONTAL)`. -/
def ENDPOINT : Car := ⟨"r", 2, 4, 2, Direction.HORIZONTAL⟩

/-- Python list index resolution: `0 ≤ i < len` is used directly, negative
indices in `[-len, 0)` wrap around, anything else raises `IndexError`. -/
def pyIdx (len : Nat) (i : Int) : Option Nat :=
  if 0 ≤ i ∧ i < (len : Int) then some i.toNat
  else if -(len : Int) ≤ i ∧ i < 0 then some (i + len).toNat
  else none

/-- Python `l[i]` (read). -/
def pyGet {α : Type} (l : List α) (i : Int) : Except Unit α :=
  match pyIdx l.length i with
  | some n =>
    match l.get? n with
    | some a => Except.ok a
    | none => Except.error ()
  | none => Except.error ()

/-- Python `l[i] = a` (write). -/
def pySet {α : Type} (l : List α) (i : Int) (a : α) : Except Unit (List α) :=
  match pyIdx l.length i with
  | some n => Except.ok (l.set n a)
  | none => Except.error ()

abbrev Board := List (List String)

/-- Python `board[x][y] = v`: the row object is fetched, mutated in place. -/
def setCell (b : Board) (x y : Int) (v : String) : Except Unit Board := do
  let row ← pyGet b x
  let row' ← pySet row y v
  pySet b x row'

/-- Python `board[x][y]` (read). -/
def getCell (b : Board) (x y : Int) : Except Unit String := do
  let row ← pyGet b x
  pyGet row y

/-- The fresh all-empty board built at the top of `get_board`. -/
def emptyBoard : Board :=
  List.replicate BOARD_SIZE.toNat (List.replicate BOARD_SIZE.toNat EMPTY_CELL)

/-- The loop body of `get_board` for one car: write the car's footprint cell
by cell (`range(car.size)`), raising `ValueError` on an unrecognized
direction. -/
def writeCar (b : Board) (car : Car) : Except Unit Board :=
  match car.direction with
  | Direction.HORIZONTAL =>
    (List.range car.size.toNat).foldlM
      (fun b (i : Nat) => setCell b car.x (car.y + (i : Int)) car.name) b
  | Direction.VERTICAL =>
    (List.range car.size.toNat).foldlM
      (fun b (i : Nat) => setCell b (car.x + (i : Int)) car.y car.name) b
  | Direction.OTHER => Except.error ()

/-- get_board mirrors the Python function of the same name: write each car's
footprint in tuple order, raising `ValueError` on an unrecognized direction
(and, implicitly through indexing, `IndexError` on an out-of-range write). -/
def get_board (cars : List Car) : Except Unit Board :=
  cars.foldlM writeCar emptyBoard

/-- update_cars_tuple mirrors the Python function: copy the tuple with the
car at `index` replaced.  It is only ever called with an index produced by
`enumerate`, hence in range. -/
def update_cars_tuple (cars : List Car) (index : Nat) (new_car : Car) : List Car :=
  cars.set index new_car

/-- Sequencing of two fallible move productions: the monadic bind of
`Except`, written as an explicit match; the first exception wins, as in the
Python generator. -/
def exAppend {α : Type} (a b : Except Unit (List α)) : Except Unit (List α) :=
  match a with
  | Except.ok x =>
    match b with
    | Except.ok y => Except.ok (x ++ y)
    | Except.error e => Except.error e
  | Except.error e => Except.error e

/-- The `# Move right` arm of `possible_moves` for a horizontal car: the
boundary test short-circuits before the board cell is read. -/
def rightMoves (board : Board) (cars : List Car) (i : Nat) (car : Car) :
    Except Unit (List (List Car)) :=
  if car.y + car.size < BOARD_SIZE then
    match getCell board car.x (car.y + car.size) with
    | Except.ok cell =>
      Except.ok (if cell = EMPTY_CELL then
        [update_cars_tuple cars i (Car.mk car.name car.x (car.y + 1) car.size car.direction)]
      else [])
    | Except.error e => Except.error e
  else Except.ok []

/-- The `# Move left` arm of `possible_moves` for a horizontal car. -/
def leftMoves (board : Board) (cars : List Car) (i : Nat) (car : Car) :
    Except Unit (List (List Car)) :=
  if 0 < car.y then
    match getCell board car.x (car.y - 1) with
    | Except.ok cell =>
      Except.ok (if cell = EMPTY_CELL then
        [update_cars_tuple cars i (Car.mk car.name car.x (car.y - 1) car.size car.direction)]
      else [])
    | Except.error e => Except.error e
  else Except.ok []

/-- The `# Move down` arm of `possible_moves` for a vertical car. -/
def downMoves (board : Board) (cars : List Car) (i : Nat) (car : Car) :
    Except Unit (List (List Car)) :=
  if car.x + car.size < BOARD_SIZE then
    match getCell board (car.x + car.size) car.y with
    | Except.ok cell =>
      Except.ok (if cell = EMPTY_CELL then
        [update_cars_tuple cars i (Car.mk car.name (car.x + 1) car.y car.size car.direction)]
      else [])
    | Except.error e => Except.error e
  else Except.ok []

/-- The `# Move up` arm of `possible_moves` for a vertical car. -/
def upMoves (board : Board) (cars : List Car) (i : Nat) (car : Car) :
    Except Unit (List (List Car)) :=
  if 0 < car.x then
    match getCell board (car.x - 1) car.y with
    | Except.ok cell =>
      Except.ok (if cell = EMPTY_CELL then
        [update_cars_tuple cars i (Car.mk car.name (car.x - 1) car.y car.size car.direction)]
      else [])
    | Except.error e => Except.error e
  else Except.ok []

/-- The moves yielded for one car of `possible_moves`, in yield order
(right before left, down before up), raising `ValueError` on an
unrecognized direction. -/
def movesForCar (board : Board) (cars : List Car) (i : Nat) (car : Car) :
    Except Unit (List (List Car)) :=
  match car.direction with
  | Direction.HORIZONTAL => exAppend (rightMoves board cars i car) (leftMoves board cars i car)
  | Direction.VERTICAL => exAppend (downMoves board cars i car) (upMoves board cars i car)
  | Direction.OTHER => Except.error ()

/-- The loop of `possible_moves` over `enumerate(cars)`. -/
def genMoves (board : Board) (cars : List Car) :
    List (Nat × Car) → Except Unit (List (List Car))
  | [] => Except.ok []
  | (i, car) :: rest =>
    exAppend (movesForCar board cars i car) (genMoves board cars rest)

/-- possible_moves mirrors the Python generator of the same name, fully
consumed: build the board once, then for each car in tuple order yield its
legal one-cell slides; an exception anywhere during the iteration aborts
the whole enumeration. -/
def possible_moves (cars : List Car) : Except Unit (List (List Car)) :=
  match get_board cars with
  | Except.ok board => genMoves board cars cars.enum
  | Except.error e => Except.error e

/-- The `logging.info` lines emitted for one consecutive pair of states in
`print_moves`: for each positionally zipped pair of cars that differ, one
line per true comparison, in source order Up, Down, Left, Right. -/
def moveLines (s1 s2 : List Car) : List String :=
  (s1.zip s2).flatMap fun p =>
    if p.1 = p.2 then []
    else
      (if p.2.x < p.1.x then [p.1.name ++ "-Up"] else []) ++
      (if p.1.x < p.2.x then [p.1.name ++ "-Down"] else []) ++
      (if p.2.y < p.1.y then [p.1.name ++ "-Left"] else []) ++
      (if p.1.y < p.2.y then [p.1.name ++ "-Right"] else [])

/-- print_moves mirrors the Python function: the returned list is the
sequence of lines passed to `logging.info`. -/
def print_moves (history : List (List Car)) : List String :=
  ("Total number of steps: " ++ toString ((history.length : Int) - 1)) ::
    (history.zip history.tail).flatMap fun p => moveLines p.1 p.2

/-- Observable outcome of `run`: the Python function always returns `None`,
so the only observable result is the sequence of `logging.info` lines
(`finished`), or an exception escaping the function (`raised`). -/
inductive RunOutcome where
  | finished (log : List String)
  | raised
  deriving DecidableEq, Repr

/-- A queue entry `(board, history)` as pushed by `run`. -/
abbrev Entry := List Car × List (List Car)

/-- The while-loop of `run`.  The deque is represented with its right end
(the popped end) first, so `pop()` is `head` and `extendleft(gen)` appends
the generated items at the back in yield order.  `fuel` only bounds the
number of iterations (`none` = fuel exhausted); it does not alter the
semantics of any terminating run. -/
def loop : Nat → List Entry → List (List Car) → Option RunOutcome
  | 0, _, _ => none
  | _ + 1, [], _ => some (RunOutcome.finished [])
  | fuel + 1, (board, history) :: rest, boards_seen =>
    if board ∈ boards_seen then loop fuel rest boards_seen
    else
      let history' := history ++ [board]
      if ENDPOINT ∈ board then
        -- print_moves(history); logging.debug(pformat([get_board(cars) ...]))
        -- the debug line evaluates get_board on every state of the history
        -- whatever the log level, and an IndexError/ValueError there escapes.
        match history'.mapM get_board with
        | Except.ok _ => some (RunOutcome.finished (print_moves history'))
        | Except.error _ => some RunOutcome.raised
      else
        match possible_moves board with
        | Except.ok moves =>
          loop fuel (rest ++ moves.map (fun m => (m, history'))) (board :: boards_seen)
        | Except.error _ => some RunOutcome.raised

/-- run mirrors the Python function of the same name. -/
def run (fuel : Nat) (initial_cars : List Car) : Option RunOutcome :=
  loop fuel [(initial_cars, [])] []

/-- The body of `read_setup` for one CSV record `(name, x, y, size, code)`:
the orientation-code dispatch raises `ValueError` on anything other than
`"H"` or `"V"`; no other field is validated. -/
def parseCar (r : String × Int × Int × Int × String) : Except Unit Car :=
  if r.2.2.2.2 = "H" then
    Except.ok (Car.mk r.1 r.2.1 r.2.2.1 r.2.2.2.1 Direction.HORIZONTAL)
  else if r.2.2.2.2 = "V" then
    Except.ok (Car.mk r.1 r.2.1 r.2.2.1 r.2.2.2.1 Direction.VERTICAL)
  else Except.error ()

/-- read_setup mirrors the Python generator, fully consumed, with the CSV
rows pre-split into `(name, x, y, size, direction-code)` and numeric fields
pre-parsed: the only validation performed is the orientation-code dispatch. -/
def read_setup : List (String × Int × Int × Int × String) → Except Unit (List Car)
  | [] => Except.ok []
  | r :: rest =>
    match parseCar r with
    | Except.ok car =>
      match read_setup rest with
      | Except.ok cars => Except.ok (car :: cars)
      | Except.error e => Except.error e
    | Except.error e => Except.error e

/-! Spec-side notions: footprints, well-formedness, the step relation of the
move generator, reachability and shortest distances.  These are the
vocabulary in which the claims are stated; the definitions above are the
program. -/

/-- The footprint of a car: the `size` contiguous grid cells it occupies,
starting at `(x, y)` along its orientation axis.  A car whose direction is
not one of the two enum members, or whose size is not positive, occupies no
cells. -/
def cells (car : Car) : List (Int × Int) :=
  match car.direction with
  | Direction.HORIZONTAL =>
    (List.range car.size.toNat).map fun (i : Nat) => (car.x, car.y + (i : Int))
  | Direction.VERTICAL =>
    (List.range car.size.toNat).map fun (i : Nat) => (car.x + (i : Int), car.y)
  | Direction.OTHER => []

/-- A grid position inside the 6x6 board. -/
def inGrid (p : Int × Int) : Prop :=
  0 ≤ p.1 ∧ p.1 < BOARD_SIZE ∧ 0 ≤ p.2 ∧ p.2 < BOARD_SIZE

instance : DecidablePred inGrid := fun _ => by unfold inGrid; infer_instance

/-- Every cell of the car's footprint lies on the board. -/
def CarInGrid (car : Car) : Prop := ∀ p ∈ cells car, inGrid p

/-- No two distinct cars of the state share a footprint cell. -/
def DisjointCars (s : State) : Prop :=
  List.Pairwise (fun a b => ∀ p ∈ cells a, p ∉ cells b) s

/-- The occupant the finished board shows at position `p`: each car in tuple
order overwrites the cell with its name when its footprint covers `p`, so
the result is the name of the last covering car, or the empty-cell marker
when no car covers `p`. -/
def occupant (cars : List Car) (p : Int × Int) : String :=
  cars.foldl (fun acc c => if p ∈ cells c then c.name else acc) EMPTY_CELL

/-- Basic state invariant (the one claimed for reachable states): footprints
on the board, pairwise disjoint, and no car named like the empty-cell
marker (such a car would make its own cells look free). -/
def BaseInv (s : State) : Prop :=
  (∀ c ∈ s, c.name ≠ EMPTY_CELL ∧ CarInGrid c) ∧ DisjointCars s

/-- A well-formed configuration in the sense of the spec: valid orientation
code, positive length, a name distinct from the empty-cell marker, footprint
on the board, and pairwise disjoint footprints. -/
def WellFormed (s : State) : Prop :=
  BaseInv s ∧ ∀ c ∈ s,
    (c.direction = Direction.HORIZONTAL ∨ c.direction = Direction.VERTICAL) ∧ 1 ≤ c.size

/-- One legal move of the generator: `t` is among the successors yielded for
`s`. -/
def Step (s t : State) : Prop :=
  ∃ L, possible_moves s = Except.ok L ∧ t ∈ L

/-- `ReachN s n t`: `t` is reachable from `s` in exactly `n` single-cell
moves of the generator. -/
inductive ReachN : State → Nat → State → Prop where
  | refl (s : State) : ReachN s 0 s
  | step {s t u : State} {n : Nat} : Step s t → ReachN t n u → ReachN s (n + 1) u

/-- `t` is reachable from `s` in some number of moves. -/
def Reachable (s t : State) : Prop := ∃ n, ReachN s n t

/-- A state is a goal state when the fixed target vehicle value is a member
of it, exactly as tested by `run`. -/
def IsGoal (s : State) : Prop := ENDPOINT ∈ s

/-- A configuration is solvable when some reachable state is a goal. -/
def Solvable (s : State) : Prop := ∃ t, Reachable s t ∧ IsGoal t

/-- The minimum number of single-cell moves needed to reach a goal state
(meaningful when `Solvable` holds). -/
noncomputable def minMoves (s : State) : Nat :=
  sInf { n | ∃ t, ReachN s n t ∧ IsGoal t }

/-- The length of a shortest move sequence from `s` to `t` (meaningful when
`Reachable s t` holds). -/
noncomputable def dist (s t : State) : Nat :=
  sInf { n | ReachN s n t }

/-- `h` is a path of generated moves starting at `s₀`. -/
def IsPath (s₀ : State) (h : List State) : Prop :=
  h.head? = some s₀ ∧ List.Chain' Step h

/-- No car of `s` covers position `p`. -/
def FreeCell (s : State) (p : Int × Int) : Prop := ∀ c ∈ s, p ∉ cells c

instance instFreeCellDec (s : State) (p : Int × Int) : Decidable (FreeCell s p) := by
  unfold FreeCell; infer_instance

/-- The moves the generator is expected to yield for car `car` at tuple
index `i` of a well-formed state, phrased with spec-level emptiness
(`FreeCell`): a one-cell slide is legal iff it stays on the board and the
entered cell is covered by no car. -/
def expectedMoves (cars : List Car) (i : Nat) (car : Car) : List (List Car) :=
  match car.direction with
  | Direction.HORIZONTAL =>
    (if car.y + car.size < BOARD_SIZE ∧ FreeCell cars (car.x, car.y + car.size) then
      [update_cars_tuple cars i (Car.mk car.name car.x (car.y + 1) car.size car.direction)]
    else []) ++
    (if 0 < car.y ∧ FreeCell cars (car.x, car.y - 1) then
      [update_cars_tuple cars i (Car.mk car.name car.x (car.y - 1) car.size car.direction)]
    else [])
  | Direction.VERTICAL =>
    (if car.x + car.size < BOARD_SIZE ∧ FreeCell cars (car.x + car.size, car.y) then
      [update_cars_tuple cars i (Car.mk car.name (car.x + 1) car.y car.size car.direction)]
    else []) ++
    (if 0 < car.x ∧ FreeCell cars (car.x - 1, car.y) then
      [update_cars_tuple cars i (Car.mk car.name (car.x - 1) car.y car.size car.direction)]
    else [])
  | Direction.OTHER => []

/-- A board of the shape `get_board` produces: six rows of six cells. -/
def WellSized (g : Board) : Prop := g.length = 6 ∧ ∀ row ∈ g, row.length = 6

/-- Mathematical view of a board cell: `some v` for an in-grid position,
`none` outside the grid. -/
def cellI (g : Board) (p : Int × Int) : Option String :=
  if inGrid p then (g[p.1.toNat]?).bind fun row => row[p.2.toNat]? else none

end RushHour

deriving instance DecidableEq for Except

namespace RushHour

instance instPairwiseDec {α : Type} {R : α → α → Prop} [DecidableRel R] :
    ∀ l : List α, Decidable (List.Pairwise R l)
  | [] => Decidable.isTrue List.Pairwise.nil
  | a :: l =>
    haveI := instPairwiseDec (R := R) l
    decidable_of_iff ((∀ b ∈ l, R a b) ∧ List.Pairwise R l) List.pairwise_cons.symm

instance : DecidablePred CarInGrid := fun c => by unfold CarInGrid; infer_instance

instance : DecidablePred DisjointCars := fun s => by unfold DisjointCars; infer_instance

instance : DecidablePred BaseInv := fun s => by unfold BaseInv; infer_instance

instance : DecidablePred WellFormed := fun s => by unfold WellFormed; infer_instance

instance : DecidablePred IsGoal := fun s => by unfold IsGoal; infer_instance

/-- All grid positions of the 6x6 board. -/
def gridPositions : List (Int × Int) :=
  (List.range 6).flatMap fun (a : Nat) => (List.range 6).map fun (b : Nat) => ((a : Int), (b : Int))

/-- The car `c` relocated to position `p` (identity, size and direction
kept). -/
def placeCar (c : Car) (p : Int × Int) : Car := ⟨c.name, p.1, p.2, c.size, c.direction⟩

/-- All lists choosing one element from each list of `Ls`, in order. -/
def listProd {α : Type} : List (List α) → List (List α)
  | [] => [[]]
  | l :: ls => l.flatMap fun a => (listProd ls).map fun t => a :: t

/-- A finite superset of all states reachable from a well-formed `template`:
each car keeps its identity, size and direction and sits at some grid
position. -/
def stateSpace (template : State) : List State :=
  listProd (template.map fun c => gridPositions.map (placeCar c))

/-- The hypothesis of the move-log formatter contract for one consecutive
pair of states: exactly one tuple position changed, and the car there kept
its identity, length and orientation while exactly one of its coordinates
changed. -/
def OneCarMoved (a b : List Car) : Prop :=
  a.length = b.length ∧ ∃ i : Nat, i < a.length ∧ (∀ j : Nat, j ≠ i → a[j]? = b[j]?) ∧
    ∃ ca cb : Car, a[i]? = some ca ∧ b[i]? = some cb ∧ ca.name = cb.name ∧
      ca.size = cb.size ∧ ca.direction = cb.direction ∧
      ((ca.x = cb.x ∧ ca.y ≠ cb.y) ∨ (ca.y = cb.y ∧ ca.x ≠ cb.x))

/-- The directional label the spec expects for a changed car: Up when its
row decreased, Down when it increased, Left when its column decreased,
Right when it increased. -/
def moveLabel (ca cb : Car) : String :=
  if cb.x < ca.x then ca.name ++ "-Up"
  else if ca.x < cb.x then ca.name ++ "-Down"
  else if cb.y < ca.y then ca.name ++ "-Left"
  else ca.name ++ "-Right"

/-- The invariant maintained by the BFS loop of `run`: every queue entry
carries a genuine path from the initial state; the queue is split into a
front block at some depth `d` and a back block at depth `d + 1`, and every
processed state lies within distance `d`; every reachable unprocessed state
is covered by a queue entry that was reached optimally; no processed state
is a goal; processed states are recorded once. -/
structure BfsInv (s₀ : State) (Q : List Entry) (seen : List State) : Prop where
  path : ∀ e ∈ Q, IsPath s₀ (e.2 ++ [e.1])
  shape : ∃ d A B, Q = A ++ B ∧ (∀ e ∈ A, e.2.length = d) ∧
    (∀ e ∈ B, e.2.length = d + 1) ∧ ∀ t ∈ seen, Reachable s₀ t ∧ dist s₀ t ≤ d
  cover : ∀ t, Reachable s₀ t → t ∉ seen → ∃ e ∈ Q, e.1 ∉ seen ∧
    e.2.length = dist s₀ e.1 ∧ dist s₀ e.1 ≤ dist s₀ t ∧
    ReachN e.1 (dist s₀ t - dist s₀ e.1) t
  nogoal : ∀ t ∈ seen, ¬ IsGoal t
  nodup : seen.Nodup

end RushHour

namespace RushHour

theorem exceptBind_ok {α β : Type} (a : α) (k : α → Except Unit β) :
    (Except.ok a >>= k) = k a := rfl

theorem exceptBind_err {α β : Type} (k : α → Except Unit β) :
    ((Except.error () : Except Unit α) >>= k) = Except.error () := rfl

theorem inGrid_iff {p : Int × Int} :
    inGrid p ↔ 0 ≤ p.1 ∧ p.1 < 6 ∧ 0 ≤ p.2 ∧ p.2 < 6 := Iff.rfl

theorem pyIdx_pos {len : Nat} {i : Int} (h0 : 0 ≤ i) (h : i < (len : Int)) :
    pyIdx len i = some i.toNat := by
  unfold pyIdx
  rw [if_pos ⟨h0, h⟩]

theorem pyGet_ok {α : Type} {l : List α} {i : Int} {a : α} (h0 : 0 ≤ i)
    (h : i < (l.length : Int)) (ha : l[i.toNat]? = some a) :
    pyGet l i = Except.ok a := by
  unfold pyGet
  rw [pyIdx_pos h0 h]
  simp [List.get?_eq_getElem?, ha]

theorem pySet_ok {α : Type} {l : List α} {i : Int} (a : α) (h0 : 0 ≤ i)
    (h : i < (l.length : Int)) :
    pySet l i a = Except.ok (l.set i.toNat a) := by
  unfold pySet
  rw [pyIdx_pos h0 h]

theorem cellI_isSome {g : Board} (hg : WellSized g) {p : Int × Int} (hp : inGrid p) :
    ∃ v, cellI g p = some v := by
  obtain ⟨hlen, hrows⟩ := hg
  have hp6 := inGrid_iff.mp hp
  have hx : p.1.toNat < g.length := by rw [hlen]; omega
  have hrow : g[p.1.toNat]? = some g[p.1.toNat] := List.getElem?_eq_getElem hx
  have hrlen : (g[p.1.toNat]).length = 6 := hrows _ (List.getElem_mem hx)
  have hy : p.2.toNat < (g[p.1.toNat]).length := by rw [hrlen]; omega
  refine ⟨(g[p.1.toNat])[p.2.toNat], ?_⟩
  unfold cellI
  rw [if_pos hp, hrow]
  simp [List.getElem?_eq_getElem hy]

theorem getCell_ok {g : Board} (hg : WellSized g) {p : Int × Int} (hp : inGrid p)
    {v : String} (hv : cellI g p = some v) :
    getCell g p.1 p.2 = Except.ok v := by
  obtain ⟨hlen, hrows⟩ := hg
  have hp6 := inGrid_iff.mp hp
  unfold cellI at hv
  rw [if_pos hp] at hv
  have hx : p.1.toNat < g.length := by rw [hlen]; omega
  have hrow : g[p.1.toNat]? = some g[p.1.toNat] := List.getElem?_eq_getElem hx
  rw [hrow] at hv
  simp only [Option.some_bind] at hv
  have hrlen : (g[p.1.toNat]).length = 6 := hrows _ (List.getElem_mem hx)
  unfold getCell
  rw [pyGet_ok hp6.1 (by rw [hlen]; exact_mod_cast hp6.2.1) hrow]
  rw [exceptBind_ok]
  exact pyGet_ok hp6.2.2.1 (by rw [hrlen]; exact_mod_cast hp6.2.2.2) hv

end RushHour

namespace RushHour

theorem setCell_spec {g : Board} {x y : Int} {v : String} (hg : WellSized g)
    (hxy : inGrid (x, y)) :
    ∃ g', setCell g x y v = Except.ok g' ∧ WellSized g' ∧
      ∀ p, cellI g' p = if p = (x, y) then some v else cellI g p := by
  obtain ⟨hlen, hrows⟩ := hg
  have h6 := inGrid_iff.mp hxy
  simp only at h6
  have hx : x.toNat < g.length := by rw [hlen]; omega
  have hrow : g[x.toNat]? = some g[x.toNat] := List.getElem?_eq_getElem hx
  have hrlen : (g[x.toNat]).length = 6 := hrows _ (List.getElem_mem hx)
  have hy : y.toNat < (g[x.toNat]).length := by rw [hrlen]; omega
  refine ⟨g.set x.toNat ((g[x.toNat]).set y.toNat v), ?_, ⟨?_, ?_⟩, ?_⟩
  · unfold setCell
    rw [pyGet_ok h6.1 (by rw [hlen]; exact_mod_cast h6.2.1) hrow, exceptBind_ok,
      pySet_ok v h6.2.2.1 (by rw [hrlen]; exact_mod_cast h6.2.2.2), exceptBind_ok,
      pySet_ok _ h6.1 (by rw [hlen]; exact_mod_cast h6.2.1)]
  · rw [List.length_set, hlen]
  · intro row hrowmem
    rcases List.mem_or_eq_of_mem_set hrowmem with h | h
    · exact hrows _ h
    · rw [h, List.length_set]
      exact hrows _ (List.getElem_mem hx)
  · intro p
    by_cases hpg : inGrid p
    · have hp6 := inGrid_iff.mp hpg
      by_cases hpx : p.1 = x
      · by_cases hpy : p.2 = y
        · have hpeq : p = (x, y) := Prod.ext hpx hpy
          rw [if_pos hpeq]
          simp only [cellI, if_pos hpg, hpx, hpy]
          rw [List.getElem?_set_self hx]
          simp only [Option.some_bind]
          rw [List.getElem?_set_self hy]
        · have hne : p ≠ (x, y) := by
            intro h; rw [h] at hpy; exact hpy rfl
          rw [if_neg hne]
          simp only [cellI, if_pos hpg, hpx]
          rw [List.getElem?_set_self hx, hrow]
          simp only [Option.some_bind]
          have hyy : p.2.toNat ≠ y.toNat := by omega
          rw [List.getElem?_set_ne (fun h => hyy h.symm)]
      · have hne : p ≠ (x, y) := by
          intro h; rw [h] at hpx; exact hpx rfl
        rw [if_neg hne]
        simp only [cellI, if_pos hpg]
        have hxx : x.toNat ≠ p.1.toNat := by omega
        rw [List.getElem?_set_ne hxx]
    · have hne : p ≠ (x, y) := by
        intro h; rw [h] at hpg; exact hpg hxy
      rw [if_neg hne]
      simp only [cellI, if_neg hpg]

end RushHour

namespace RushHour

theorem emptyBoard_wellSized : WellSized emptyBoard := by
  constructor
  · simp [emptyBoard, BOARD_SIZE]
  · intro row hrow
    simp only [emptyBoard] at hrow
    rw [List.eq_of_mem_replicate hrow]
    simp [BOARD_SIZE]

theorem cellI_emptyBoard {p : Int × Int} (hp : inGrid p) :
    cellI emptyBoard p = some EMPTY_CELL := by
  have hp6 := inGrid_iff.mp hp
  unfold cellI emptyBoard
  rw [if_pos hp]
  rw [List.getElem?_replicate_of_lt (by simp [BOARD_SIZE]; omega)]
  simp only [Option.some_bind]
  rw [List.getElem?_replicate_of_lt (by simp [BOARD_SIZE]; omega)]

theorem writeH_spec (car : Car) : ∀ (n : Nat) (b : Board), WellSized b →
    (∀ i : Nat, i < n → inGrid (car.x, car.y + (i : Int))) →
    ∃ b', (List.range n).foldlM
        (fun b (i : Nat) => setCell b car.x (car.y + (i : Int)) car.name) b = Except.ok b' ∧
      WellSized b' ∧
      ∀ p, cellI b' p =
        if ∃ i : Nat, i < n ∧ p = (car.x, car.y + (i : Int)) then some car.name
        else cellI b p := by
  intro n
  induction n with
  | zero =>
    intro b hb _
    refine ⟨b, rfl, hb, fun p => ?_⟩
    rw [if_neg]
    rintro ⟨i, hi, _⟩
    omega
  | succ n ih =>
    intro b hb hgrid
    obtain ⟨b₁, hfold, hb₁, hcell₁⟩ := ih b hb (fun i hi => hgrid i (by omega))
    obtain ⟨b₂, hset, hb₂, hcell₂⟩ :=
      setCell_spec (v := car.name) hb₁ (hgrid n (by omega))
    refine ⟨b₂, ?_, hb₂, ?_⟩
    · rw [List.range_succ, List.foldlM_append, hfold, exceptBind_ok]
      simp only [List.foldlM_cons, List.foldlM_nil, hset, exceptBind_ok]
      rfl
    · intro p
      rw [hcell₂ p, hcell₁ p]
      by_cases hlast : p = (car.x, car.y + (n : Int))
      · rw [if_pos hlast, if_pos ⟨n, by omega, hlast⟩]
      · rw [if_neg hlast]
        by_cases hearlier : ∃ i : Nat, i < n ∧ p = (car.x, car.y + (i : Int))
        · obtain ⟨i, hi, hpi⟩ := hearlier
          rw [if_pos ⟨i, hi, hpi⟩, if_pos ⟨i, by omega, hpi⟩]
        · rw [if_neg hearlier, if_neg]
          rintro ⟨i, hi, hpi⟩
          rcases Nat.lt_succ_iff_lt_or_eq.mp hi with h | h
          · exact hearlier ⟨i, h, hpi⟩
          · rw [h] at hpi; exact hlast hpi

theorem writeV_spec (car : Car) : ∀ (n : Nat) (b : Board), WellSized b →
    (∀ i : Nat, i < n → inGrid (car.x + (i : Int), car.y)) →
    ∃ b', (List.range n).foldlM
        (fun b (i : Nat) => setCell b (car.x + (i : Int)) car.y car.name) b = Except.ok b' ∧
      WellSized b' ∧
      ∀ p, cellI b' p =
        if ∃ i : Nat, i < n ∧ p = (car.x + (i : Int), car.y) then some car.name
        else cellI b p := by
  intro n
  induction n with
  | zero =>
    intro b hb _
    refine ⟨b, rfl, hb, fun p => ?_⟩
    rw [if_neg]
    rintro ⟨i, hi, _⟩
    omega
  | succ n ih =>
    intro b hb hgrid
    obtain ⟨b₁, hfold, hb₁, hcell₁⟩ := ih b hb (fun i hi => hgrid i (by omega))
    obtain ⟨b₂, hset, hb₂, hcell₂⟩ :=
      setCell_spec (v := car.name) hb₁ (hgrid n (by omega))
    refine ⟨b₂, ?_, hb₂, ?_⟩
    · rw [List.range_succ, List.foldlM_append, hfold, exceptBind_ok]
      simp only [List.foldlM_cons, List.foldlM_nil, hset, exceptBind_ok]
      rfl
    · intro p
      rw [hcell₂ p, hcell₁ p]
      by_cases hlast : p = (car.x + (n : Int), car.y)
      · rw [if_pos hlast, if_pos ⟨n, by omega, hlast⟩]
      · rw [if_neg hlast]
        by_cases hearlier : ∃ i : Nat, i < n ∧ p = (car.x + (i : Int), car.y)
        · obtain ⟨i, hi, hpi⟩ := hearlier
          rw [if_pos ⟨i, hi, hpi⟩, if_pos ⟨i, by omega, hpi⟩]
        · rw [if_neg hearlier, if_neg]
          rintro ⟨i, hi, hpi⟩
          rcases Nat.lt_succ_iff_lt_or_eq.mp hi with h | h
          · exact hearlier ⟨i, h, hpi⟩
          · rw [h] at hpi; exact hlast hpi

end RushHour

namespace RushHour

theorem cells_memH {car : Car} (hd : car.direction = Direction.HORIZONTAL) {p : Int × Int} :
    p ∈ cells car ↔ ∃ i : Nat, i < car.size.toNat ∧ p = (car.x, car.y + (i : Int)) := by
  unfold cells
  rw [hd]
  simp [List.mem_map, List.mem_range, eq_comm]

theorem cells_memV {car : Car} (hd : car.direction = Direction.VERTICAL) {p : Int × Int} :
    p ∈ cells car ↔ ∃ i : Nat, i < car.size.toNat ∧ p = (car.x + (i : Int), car.y) := by
  unfold cells
  rw [hd]
  simp [List.mem_map, List.mem_range, eq_comm]

theorem writeCar_spec {b : Board} {car : Car} (hb : WellSized b)
    (hdir : car.direction = Direction.HORIZONTAL ∨ car.direction = Direction.VERTICAL)
    (hgrid : CarInGrid car) :
    ∃ b', writeCar b car = Except.ok b' ∧ WellSized b' ∧
      ∀ p, cellI b' p = if p ∈ cells car then some car.name else cellI b p := by
  rcases hdir with hd | hd
  · obtain ⟨b', hfold, hb', hcell⟩ := writeH_spec car car.size.toNat b hb
      (fun i hi => hgrid _ ((cells_memH hd).mpr ⟨i, hi, rfl⟩))
    refine ⟨b', ?_, hb', fun p => ?_⟩
    · unfold writeCar
      rw [hd]
      exact hfold
    · rw [hcell p]
      by_cases hc : p ∈ cells car
      · rw [if_pos hc, if_pos ((cells_memH hd).mp hc)]
      · rw [if_neg hc, if_neg (fun h => hc ((cells_memH hd).mpr h))]
  · obtain ⟨b', hfold, hb', hcell⟩ := writeV_spec car car.size.toNat b hb
      (fun i hi => hgrid _ ((cells_memV hd).mpr ⟨i, hi, rfl⟩))
    refine ⟨b', ?_, hb', fun p => ?_⟩
    · unfold writeCar
      rw [hd]
      exact hfold
    · rw [hcell p]
      by_cases hc : p ∈ cells car
      · rw [if_pos hc, if_pos ((cells_memV hd).mp hc)]
      · rw [if_neg hc, if_neg (fun h => hc ((cells_memV hd).mpr h))]

theorem get_board_aux : ∀ (cars : List Car) (b : Board), WellSized b →
    (∀ c ∈ cars,
      (c.direction = Direction.HORIZONTAL ∨ c.direction = Direction.VERTICAL) ∧
      CarInGrid c) →
    ∃ g, cars.foldlM writeCar b = Except.ok g ∧ WellSized g ∧
      ∀ p, cellI g p = (cellI b p).map
        fun v0 => cars.foldl (fun acc c => if p ∈ cells c then c.name else acc) v0 := by
  intro cars
  induction cars with
  | nil =>
    intro b hb _
    refine ⟨b, rfl, hb, fun p => ?_⟩
    simp only [List.foldl_nil]
    cases cellI b p <;> rfl
  | cons car rest ih =>
    intro b hb hcars
    obtain ⟨b₁, hw, hb₁, hcell₁⟩ :=
      writeCar_spec hb (hcars car (List.mem_cons_self _ _)).1 (hcars car (List.mem_cons_self _ _)).2
    obtain ⟨g, hfold, hg, hcell⟩ := ih b₁ hb₁ (fun c hc => hcars c (List.mem_cons_of_mem _ hc))
    refine ⟨g, ?_, hg, fun p => ?_⟩
    · rw [List.foldlM_cons, hw, exceptBind_ok]
      exact hfold
    · rw [hcell p, hcell₁ p]
      simp only [List.foldl_cons]
      by_cases hc : p ∈ cells car
      · rw [if_pos hc]
        obtain ⟨v0, hv0⟩ := cellI_isSome hb
          ((hcars car (List.mem_cons_self _ _)).2 _ hc)
        rw [hv0]
        simp [if_pos hc]
      · rw [if_neg hc]
        cases cellI b p <;> simp [if_neg hc]

theorem get_board_spec {cars : List Car}
    (h : ∀ c ∈ cars,
      (c.direction = Direction.HORIZONTAL ∨ c.direction = Direction.VERTICAL) ∧
      CarInGrid c) :
    ∃ g, get_board cars = Except.ok g ∧ WellSized g ∧
      ∀ p, inGrid p → cellI g p = some (occupant cars p) := by
  obtain ⟨g, hfold, hg, hcell⟩ := get_board_aux cars emptyBoard emptyBoard_wellSized h
  refine ⟨g, hfold, hg, fun p hp => ?_⟩
  rw [hcell p, cellI_emptyBoard hp]
  rfl

theorem occupant_free {p : Int × Int} :
    ∀ (cars : List Car) (init : String), (∀ c ∈ cars, p ∉ cells c) →
      cars.foldl (fun acc c => if p ∈ cells c then c.name else acc) init = init := by
  intro cars
  induction cars with
  | nil => intro init _; rfl
  | cons car rest ih =>
    intro init hfree
    rw [List.foldl_cons, if_neg (hfree car (List.mem_cons_self _ _))]
    exact ih init (fun c hc => hfree c (List.mem_cons_of_mem _ hc))

theorem occupant_covered {p : Int × Int} :
    ∀ (cars : List Car) (init : String), (∃ c ∈ cars, p ∈ cells c) →
      ∃ c ∈ cars, p ∈ cells c ∧
        cars.foldl (fun acc c => if p ∈ cells c then c.name else acc) init = c.name := by
  intro cars
  induction cars with
  | nil => rintro init ⟨c, hc, _⟩; cases hc
  | cons car rest ih =>
    intro init hcov
    rw [List.foldl_cons]
    by_cases hr : ∃ c ∈ rest, p ∈ cells c
    · obtain ⟨c, hc, hpc, heq⟩ := ih _ hr
      exact ⟨c, List.mem_cons_of_mem _ hc, hpc, heq⟩
    · have hcar : p ∈ cells car := by
        rcases hcov with ⟨c, hc, hpc⟩
        rcases List.mem_cons.mp hc with rfl | hc
        · exact hpc
        · exact absurd ⟨c, hc, hpc⟩ hr
      refine ⟨car, List.mem_cons_self _ _, hcar, ?_⟩
      rw [if_pos hcar]
      exact occupant_free rest car.name (fun c hc hpc => hr ⟨c, hc, hpc⟩)

theorem occupant_eq_empty_iff {cars : List Car} {p : Int × Int}
    (hnames : ∀ c ∈ cars, c.name ≠ EMPTY_CELL) :
    occupant cars p = EMPTY_CELL ↔ FreeCell cars p := by
  constructor
  · intro hocc c hc hpc
    obtain ⟨d, hd, hpd, heq⟩ := occupant_covered cars EMPTY_CELL ⟨c, hc, hpc⟩
    rw [occupant] at hocc
    rw [hocc] at heq
    exact hnames d hd heq.symm
  · intro hfree
    exact occupant_free cars EMPTY_CELL hfree

end RushHour

namespace RushHour

theorem exAppend_ok {α : Type} {a b : Except Unit (List α)} {x y : List α}
    (ha : a = Except.ok x) (hb : b = Except.ok y) :
    exAppend a b = Except.ok (x ++ y) := by
  rw [ha, hb]
  rfl

theorem carH_bounds {car : Car} (hd : car.direction = Direction.HORIZONTAL)
    (hgrid : CarInGrid car) (hsize : 1 ≤ car.size) :
    0 ≤ car.x ∧ car.x < 6 ∧ 0 ≤ car.y ∧ car.y + car.size ≤ 6 := by
  have h1 : (car.x, car.y + ((0 : Nat) : Int)) ∈ cells car :=
    (cells_memH hd).mpr ⟨0, by omega, rfl⟩
  have h2 : (car.x, car.y + ((car.size.toNat - 1 : Nat) : Int)) ∈ cells car :=
    (cells_memH hd).mpr ⟨car.size.toNat - 1, by omega, rfl⟩
  have g1 := inGrid_iff.mp (hgrid _ h1)
  have g2 := inGrid_iff.mp (hgrid _ h2)
  simp only at g1 g2
  omega

theorem carV_bounds {car : Car} (hd : car.direction = Direction.VERTICAL)
    (hgrid : CarInGrid car) (hsize : 1 ≤ car.size) :
    0 ≤ car.y ∧ car.y < 6 ∧ 0 ≤ car.x ∧ car.x + car.size ≤ 6 := by
  have h1 : (car.x + ((0 : Nat) : Int), car.y) ∈ cells car :=
    (cells_memV hd).mpr ⟨0, by omega, rfl⟩
  have h2 : (car.x + ((car.size.toNat - 1 : Nat) : Int), car.y) ∈ cells car :=
    (cells_memV hd).mpr ⟨car.size.toNat - 1, by omega, rfl⟩
  have g1 := inGrid_iff.mp (hgrid _ h1)
  have g2 := inGrid_iff.mp (hgrid _ h2)
  simp only at g1 g2
  omega

theorem rightMoves_spec {cars : List Car} {g : Board} (hg : WellSized g)
    (hcell : ∀ p, inGrid p → cellI g p = some (occupant cars p))
    (hnames : ∀ c ∈ cars, c.name ≠ EMPTY_CELL)
    {car : Car} (hb : 0 ≤ car.x ∧ car.x < 6 ∧ 0 ≤ car.y ∧ car.y + car.size ≤ 6)
    (hsize : 1 ≤ car.size) (i : Nat) :
    rightMoves g cars i car = Except.ok
      (if car.y + car.size < BOARD_SIZE ∧ FreeCell cars (car.x, car.y + car.size) then
        [update_cars_tuple cars i (Car.mk car.name car.x (car.y + 1) car.size car.direction)]
      else []) := by
  unfold rightMoves
  by_cases hc : car.y + car.size < BOARD_SIZE
  · have hp : inGrid (car.x, car.y + car.size) := by
      rw [inGrid_iff]
      refine ⟨hb.1, hb.2.1, by omega, by revert hc; unfold BOARD_SIZE; omega⟩
    rw [if_pos hc]
    simp only [getCell_ok hg hp (hcell _ hp)]
    by_cases hf : FreeCell cars (car.x, car.y + car.size)
    · rw [if_pos ((occupant_eq_empty_iff hnames).mpr hf), if_pos ⟨hc, hf⟩]
    · rw [if_neg (fun h => hf ((occupant_eq_empty_iff hnames).mp h)),
        if_neg (fun h => hf h.2)]
  · rw [if_neg hc, if_neg (fun h => hc h.1)]

theorem leftMoves_spec {cars : List Car} {g : Board} (hg : WellSized g)
    (hcell : ∀ p, inGrid p → cellI g p = some (occupant cars p))
    (hnames : ∀ c ∈ cars, c.name ≠ EMPTY_CELL)
    {car : Car} (hb : 0 ≤ car.x ∧ car.x < 6 ∧ 0 ≤ car.y ∧ car.y + car.size ≤ 6)
    (hsize : 1 ≤ car.size) (i : Nat) :
    leftMoves g cars i car = Except.ok
      (if 0 < car.y ∧ FreeCell cars (car.x, car.y - 1) then
        [update_cars_tuple cars i (Car.mk car.name car.x (car.y - 1) car.size car.direction)]
      else []) := by
  unfold leftMoves
  by_cases hc : 0 < car.y
  · have hp : inGrid (car.x, car.y - 1) := by
      rw [inGrid_iff]
      exact ⟨hb.1, hb.2.1, by omega, by omega⟩
    rw [if_pos hc]
    simp only [getCell_ok hg hp (hcell _ hp)]
    by_cases hf : FreeCell cars (car.x, car.y - 1)
    · rw [if_pos ((occupant_eq_empty_iff hnames).mpr hf), if_pos ⟨hc, hf⟩]
    · rw [if_neg (fun h => hf ((occupant_eq_empty_iff hnames).mp h)),
        if_neg (fun h => hf h.2)]
  · rw [if_neg hc, if_neg (fun h => hc h.1)]

theorem downMoves_spec {cars : List Car} {g : Board} (hg : WellSized g)
    (hcell : ∀ p, inGrid p → cellI g p = some (occupant cars p))
    (hnames : ∀ c ∈ cars, c.name ≠ EMPTY_CELL)
    {car : Car} (hb : 0 ≤ car.y ∧ car.y < 6 ∧ 0 ≤ car.x ∧ car.x + car.size ≤ 6)
    (hsize : 1 ≤ car.size) (i : Nat) :
    downMoves g cars i car = Except.ok
      (if car.x + car.size < BOARD_SIZE ∧ FreeCell cars (car.x + car.size, car.y) then
        [update_cars_tuple cars i (Car.mk car.name (car.x + 1) car.y car.size car.direction)]
      else []) := by
  unfold downMoves
  by_cases hc : car.x + car.size < BOARD_SIZE
  · have hp : inGrid (car.x + car.size, car.y) := by
      rw [inGrid_iff]
      refine ⟨by omega, by revert hc; unfold BOARD_SIZE; omega, hb.1, hb.2.1⟩
    rw [if_pos hc]
    simp only [getCell_ok hg hp (hcell _ hp)]
    by_cases hf : FreeCell cars (car.x + car.size, car.y)
    · rw [if_pos ((occupant_eq_empty_iff hnames).mpr hf), if_pos ⟨hc, hf⟩]
    · rw [if_neg (fun h => hf ((occupant_eq_empty_iff hnames).mp h)),
        if_neg (fun h => hf h.2)]
  · rw [if_neg hc, if_neg (fun h => hc h.1)]

theorem upMoves_spec {cars : List Car} {g : Board} (hg : WellSized g)
    (hcell : ∀ p, inGrid p → cellI g p = some (occupant cars p))
    (hnames : ∀ c ∈ cars, c.name ≠ EMPTY_CELL)
    {car : Car} (hb : 0 ≤ car.y ∧ car.y < 6 ∧ 0 ≤ car.x ∧ car.x + car.size ≤ 6)
    (hsize : 1 ≤ car.size) (i : Nat) :
    upMoves g cars i car = Except.ok
      (if 0 < car.x ∧ FreeCell cars (car.x - 1, car.y) then
        [update_cars_tuple cars i (Car.mk car.name (car.x - 1) car.y car.size car.direction)]
      else []) := by
  unfold upMoves
  by_cases hc : 0 < car.x
  · have hp : inGrid (car.x - 1, car.y) := by
      rw [inGrid_iff]
      exact ⟨by omega, by omega, hb.1, hb.2.1⟩
    rw [if_pos hc]
    simp only [getCell_ok hg hp (hcell _ hp)]
    by_cases hf : FreeCell cars (car.x - 1, car.y)
    · rw [if_pos ((occupant_eq_empty_iff hnames).mpr hf), if_pos ⟨hc, hf⟩]
    · rw [if_neg (fun h => hf ((occupant_eq_empty_iff hnames).mp h)),
        if_neg (fun h => hf h.2)]
  · rw [if_neg hc, if_neg (fun h => hc h.1)]

theorem movesForCar_spec {cars : List Car} {g : Board} (hg : WellSized g)
    (hcell : ∀ p, inGrid p → cellI g p = some (occupant cars p))
    (hnames : ∀ c ∈ cars, c.name ≠ EMPTY_CELL)
    {car : Car}
    (hdir : car.direction = Direction.HORIZONTAL ∨ car.direction = Direction.VERTICAL)
    (hgrid : CarInGrid car) (hsize : 1 ≤ car.size) (i : Nat) :
    movesForCar g cars i car = Except.ok (expectedMoves cars i car) := by
  rcases hdir with hd | hd
  · have hr := rightMoves_spec hg hcell hnames (carH_bounds hd hgrid hsize) hsize i
    have hl := leftMoves_spec hg hcell hnames (carH_bounds hd hgrid hsize) hsize i
    rw [hd] at hr hl
    unfold movesForCar expectedMoves
    rw [hd]
    exact exAppend_ok hr hl
  · have hdn := downMoves_spec hg hcell hnames (carV_bounds hd hgrid hsize) hsize i
    have hup := upMoves_spec hg hcell hnames (carV_bounds hd hgrid hsize) hsize i
    rw [hd] at hdn hup
    unfold movesForCar expectedMoves
    rw [hd]
    exact exAppend_ok hdn hup

end RushHour

namespace RushHour

theorem exAppend_eq_ok {α : Type} {a b : Except Unit (List α)} {M : List α} :
    exAppend a b = Except.ok M ↔ ∃ x y, a = Except.ok x ∧ b = Except.ok y ∧ M = x ++ y := by
  constructor
  · intro h
    cases a with
    | ok x =>
      cases b with
      | ok y =>
        refine ⟨x, y, rfl, rfl, ?_⟩
        have : Except.ok (ε := Unit) (x ++ y) = Except.ok M := h
        exact (Except.ok.inj this).symm
      | error e => exact absurd h (by intro hh; cases hh)
    | error e => exact absurd h (by intro hh; cases hh)
  · rintro ⟨x, y, rfl, rfl, rfl⟩
    rfl

theorem rightMoves_shape {board : Board} {cars : List Car} {i : Nat} {car : Car}
    {M : List (List Car)} (h : rightMoves board cars i car = Except.ok M) :
    ∀ t ∈ M,
      t = update_cars_tuple cars i (Car.mk car.name car.x (car.y + 1) car.size car.direction) := by
  intro t ht
  unfold rightMoves at h
  by_cases hc : car.y + car.size < BOARD_SIZE
  · rw [if_pos hc] at h
    cases hr : getCell board car.x (car.y + car.size) with
    | ok cell =>
      rw [hr] at h
      have hM := Except.ok.inj h
      rw [← hM] at ht
      by_cases he : cell = EMPTY_CELL
      · rw [if_pos he] at ht
        rcases List.mem_singleton.mp ht with rfl
        rfl
      · rw [if_neg he] at ht
        cases ht
    | error e =>
      rw [hr] at h
      cases h
  · rw [if_neg hc] at h
    have hM := Except.ok.inj h
    rw [← hM] at ht
    cases ht

end RushHour

namespace RushHour

theorem leftMoves_shape {board : Board} {cars : List Car} {i : Nat} {car : Car}
    {M : List (List Car)} (h : leftMoves board cars i car = Except.ok M) :
    ∀ t ∈ M,
      t = update_cars_tuple cars i (Car.mk car.name car.x (car.y - 1) car.size car.direction) := by
  intro t ht
  unfold leftMoves at h
  by_cases hc : 0 < car.y
  · rw [if_pos hc] at h
    cases hr : getCell board car.x (car.y - 1) with
    | ok cell =>
      rw [hr] at h
      have hM := Except.ok.inj h
      rw [← hM] at ht
      by_cases he : cell = EMPTY_CELL
      · rw [if_pos he] at ht
        rcases List.mem_singleton.mp ht with rfl
        rfl
      · rw [if_neg he] at ht
        cases ht
    | error e =>
      rw [hr] at h
      cases h
  · rw [if_neg hc] at h
    have hM := Except.ok.inj h
    rw [← hM] at ht
    cases ht

theorem downMoves_shape {board : Board} {cars : List Car} {i : Nat} {car : Car}
    {M : List (List Car)} (h : downMoves board cars i car = Except.ok M) :
    ∀ t ∈ M,
      t = update_cars_tuple cars i (Car.mk car.name (car.x + 1) car.y car.size car.direction) := by
  intro t ht
  unfold downMoves at h
  by_cases hc : car.x + car.size < BOARD_SIZE
  · rw [if_pos hc] at h
    cases hr : getCell board (car.x + car.size) car.y with
    | ok cell =>
      rw [hr] at h
      have hM := Except.ok.inj h
      rw [← hM] at ht
      by_cases he : cell = EMPTY_CELL
      · rw [if_pos he] at ht
        rcases List.mem_singleton.mp ht with rfl
        rfl
      · rw [if_neg he] at ht
        cases ht
    | error e =>
      rw [hr] at h
      cases h
  · rw [if_neg hc] at h
    have hM := Except.ok.inj h
    rw [← hM] at ht
    cases ht

theorem upMoves_shape {board : Board} {cars : List Car} {i : Nat} {car : Car}
    {M : List (List Car)} (h : upMoves board cars i car = Except.ok M) :
    ∀ t ∈ M,
      t = update_cars_tuple cars i (Car.mk car.name (car.x - 1) car.y car.size car.direction) := by
  intro t ht
  unfold upMoves at h
  by_cases hc : 0 < car.x
  · rw [if_pos hc] at h
    cases hr : getCell board (car.x - 1) car.y with
    | ok cell =>
      rw [hr] at h
      have hM := Except.ok.inj h
      rw [← hM] at ht
      by_cases he : cell = EMPTY_CELL
      · rw [if_pos he] at ht
        rcases List.mem_singleton.mp ht with rfl
        rfl
      · rw [if_neg he] at ht
        cases ht
    | error e =>
      rw [hr] at h
      cases h
  · rw [if_neg hc] at h
    have hM := Except.ok.inj h
    rw [← hM] at ht
    cases ht

theorem movesForCar_dir {board : Board} {cars : List Car} {i : Nat} {car : Car}
    {M : List (List Car)} (h : movesForCar board cars i car = Except.ok M) :
    car.direction = Direction.HORIZONTAL ∨ car.direction = Direction.VERTICAL := by
  unfold movesForCar at h
  cases hd : car.direction with
  | HORIZONTAL => exact Or.inl rfl
  | VERTICAL => exact Or.inr rfl
  | OTHER =>
    rw [hd] at h
    cases h

theorem movesForCar_mem_shape {board : Board} {cars : List Car} {i : Nat} {car : Car}
    {M : List (List Car)} {t : List Car} (h : movesForCar board cars i car = Except.ok M)
    (ht : t ∈ M) :
    ∃ c', t = update_cars_tuple cars i c' ∧ c'.name = car.name ∧ c'.size = car.size ∧
      c'.direction = car.direction ∧
      ((c'.x = car.x ∧ (c'.y = car.y + 1 ∨ c'.y = car.y - 1)) ∨
        (c'.y = car.y ∧ (c'.x = car.x + 1 ∨ c'.x = car.x - 1))) := by
  unfold movesForCar at h
  cases hd : car.direction with
  | HORIZONTAL =>
    rw [hd] at h
    obtain ⟨x, y, hx, hy, rfl⟩ := exAppend_eq_ok.mp h
    rcases List.mem_append.mp ht with hm | hm
    · exact ⟨_, rightMoves_shape hx t hm, rfl, rfl, hd, Or.inl ⟨rfl, Or.inl rfl⟩⟩
    · exact ⟨_, leftMoves_shape hy t hm, rfl, rfl, hd, Or.inl ⟨rfl, Or.inr rfl⟩⟩
  | VERTICAL =>
    rw [hd] at h
    obtain ⟨x, y, hx, hy, rfl⟩ := exAppend_eq_ok.mp h
    rcases List.mem_append.mp ht with hm | hm
    · exact ⟨_, downMoves_shape hx t hm, rfl, rfl, hd, Or.inr ⟨rfl, Or.inl rfl⟩⟩
    · exact ⟨_, upMoves_shape hy t hm, rfl, rfl, hd, Or.inr ⟨rfl, Or.inr rfl⟩⟩
  | OTHER =>
    rw [hd] at h
    cases h

theorem genMoves_ok_all {board : Board} {cars : List Car} :
    ∀ (l : List (Nat × Car)) (M : List (List Car)),
      genMoves board cars l = Except.ok M →
      ∀ e ∈ l, ∃ Me, movesForCar board cars e.1 e.2 = Except.ok Me := by
  intro l
  induction l with
  | nil => intro M _ e he; cases he
  | cons a rest ih =>
    intro M h e he
    obtain ⟨i, car⟩ := a
    unfold genMoves at h
    obtain ⟨x, y, hx, hy, rfl⟩ := exAppend_eq_ok.mp h
    rcases List.mem_cons.mp he with rfl | he
    · exact ⟨x, hx⟩
    · exact ih y hy e he

theorem genMoves_mem {board : Board} {cars : List Car} :
    ∀ (l : List (Nat × Car)) (M : List (List Car)),
      genMoves board cars l = Except.ok M →
      ∀ t, t ∈ M ↔ ∃ e ∈ l, ∃ Me,
        movesForCar board cars e.1 e.2 = Except.ok Me ∧ t ∈ Me := by
  intro l
  induction l with
  | nil =>
    intro M h t
    have hM : ([] : List (List Car)) = M := Except.ok.inj h
    rw [← hM]
    simp
  | cons a rest ih =>
    intro M h t
    obtain ⟨i, car⟩ := a
    unfold genMoves at h
    obtain ⟨x, y, hx, hy, rfl⟩ := exAppend_eq_ok.mp h
    rw [List.mem_append, ih y hy t]
    constructor
    · rintro (hm | ⟨e, he, Me, hMe, htMe⟩)
      · exact ⟨(i, car), List.mem_cons_self _ _, x, hx, hm⟩
      · exact ⟨e, List.mem_cons_of_mem _ he, Me, hMe, htMe⟩
    · rintro ⟨e, he, Me, hMe, htMe⟩
      rcases List.mem_cons.mp he with rfl | he
      · rw [hMe] at hx
        exact Or.inl (Except.ok.inj hx ▸ htMe)
      · exact Or.inr ⟨e, he, Me, hMe, htMe⟩

theorem possible_moves_board {cars : List Car} {L : List (List Car)}
    (h : possible_moves cars = Except.ok L) :
    ∃ g, get_board cars = Except.ok g ∧ genMoves g cars cars.enum = Except.ok L := by
  unfold possible_moves at h
  cases hg : get_board cars with
  | ok g =>
    rw [hg] at h
    exact ⟨g, rfl, h⟩
  | error e =>
    rw [hg] at h
    cases h

theorem pm_ok_dirs {cars : List Car} {L : List (List Car)}
    (h : possible_moves cars = Except.ok L) :
    ∀ c ∈ cars, c.direction = Direction.HORIZONTAL ∨ c.direction = Direction.VERTICAL := by
  obtain ⟨g, hg, hgen⟩ := possible_moves_board h
  intro c hc
  obtain ⟨i, hi, hci⟩ := List.getElem_of_mem hc
  have hmem : (i, c) ∈ cars.enum := by
    rw [List.mk_mem_enum_iff_getElem?]
    rw [List.getElem?_eq_getElem hi, hci]
  obtain ⟨Me, hMe⟩ := genMoves_ok_all cars.enum L hgen (i, c) hmem
  exact movesForCar_dir hMe

end RushHour

namespace RushHour

theorem genMoves_spec {board : Board} {cars : List Car} :
    ∀ (l : List (Nat × Car)),
      (∀ e ∈ l, movesForCar board cars e.1 e.2 = Except.ok (expectedMoves cars e.1 e.2)) →
      genMoves board cars l =
        Except.ok (l.flatMap fun e => expectedMoves cars e.1 e.2) := by
  intro l
  induction l with
  | nil => intro _; rfl
  | cons e rest ih =>
    intro h
    obtain ⟨i, car⟩ := e
    unfold genMoves
    rw [List.flatMap_cons]
    exact exAppend_ok (h (i, car) (List.mem_cons_self _ _))
      (ih fun e he => h e (List.mem_cons_of_mem _ he))

theorem possible_moves_spec {cars : List Car} (hwf : WellFormed cars) :
    possible_moves cars =
      Except.ok (cars.enum.flatMap fun e => expectedMoves cars e.1 e.2) := by
  obtain ⟨⟨hnc, hdisj⟩, hds⟩ := hwf
  obtain ⟨g, hgb, hgw, hcell⟩ := get_board_spec (fun c hc => ⟨(hds c hc).1, (hnc c hc).2⟩)
  unfold possible_moves
  rw [hgb]
  apply genMoves_spec
  intro e he
  have hmem : e.2 ∈ cars := by
    have h1 := List.mem_enum_iff_getElem?.mp he
    exact List.getElem?_mem h1
  exact movesForCar_spec hgw hcell (fun c hc => (hnc c hc).1)
    (hds e.2 hmem).1 (hnc e.2 hmem).2 (hds e.2 hmem).2 e.1

theorem step_mem_iff {s t : State} (hwf : WellFormed s) :
    Step s t ↔ ∃ e ∈ s.enum, t ∈ expectedMoves s e.1 e.2 := by
  unfold Step
  constructor
  · rintro ⟨L, hL, ht⟩
    rw [possible_moves_spec hwf] at hL
    rw [← Except.ok.inj hL] at ht
    exact List.mem_flatMap.mp ht
  · intro h
    exact ⟨_, possible_moves_spec hwf, List.mem_flatMap.mpr h⟩

theorem step_shape {s t : State} (h : Step s t) :
    ∃ (i : Nat) (car c' : Car), s[i]? = some car ∧ t = update_cars_tuple s i c' ∧
      c'.name = car.name ∧ c'.size = car.size ∧ c'.direction = car.direction ∧
      ((c'.x = car.x ∧ (c'.y = car.y + 1 ∨ c'.y = car.y - 1)) ∨
        (c'.y = car.y ∧ (c'.x = car.x + 1 ∨ c'.x = car.x - 1))) := by
  obtain ⟨L, hL, ht⟩ := h
  obtain ⟨g, hgb, hgen⟩ := possible_moves_board hL
  obtain ⟨e, he, Me, hMe, htMe⟩ := (genMoves_mem s.enum L hgen t).mp ht
  obtain ⟨c', rfl, hname, hsize, hdir, hmove⟩ := movesForCar_mem_shape hMe htMe
  exact ⟨e.1, e.2, c', List.mem_enum_iff_getElem?.mp he, rfl, hname, hsize, hdir, hmove⟩

theorem step_fields {s t : State} (h : Step s t) :
    t.length = s.length ∧ ∀ j : Nat,
      (t[j]?).map (fun c => (c.name, c.size, c.direction)) =
      (s[j]?).map (fun c => (c.name, c.size, c.direction)) := by
  obtain ⟨i, car, c', hcar, rfl, hname, hsize, hdir, hmove⟩ := step_shape h
  unfold update_cars_tuple
  refine ⟨List.length_set _ _ _, fun j => ?_⟩
  by_cases hij : j = i
  · subst hij
    have hj : j < s.length := by
      by_contra hge
      rw [List.getElem?_eq_none (by omega)] at hcar
      cases hcar
    rw [List.getElem?_set_self hj, hcar]
    simp only [Option.map]
    rw [hname, hsize, hdir]
  · rw [List.getElem?_set_ne (fun hh => hij hh.symm)]

theorem reachN_fields {s : State} : ∀ {n : Nat} {t : State}, ReachN s n t →
    t.length = s.length ∧ ∀ j : Nat,
      (t[j]?).map (fun c => (c.name, c.size, c.direction)) =
      (s[j]?).map (fun c => (c.name, c.size, c.direction)) := by
  intro n t h
  induction h with
  | refl s => exact ⟨rfl, fun j => rfl⟩
  | step hstep _ ih =>
    obtain ⟨hlen1, hf1⟩ := step_fields hstep
    obtain ⟨hlen2, hf2⟩ := ih
    exact ⟨hlen2.trans hlen1, fun j => (hf2 j).trans (hf1 j)⟩

end RushHour

namespace RushHour

theorem cells_nil_of_nonpos {car : Car} (h : car.size ≤ 0) : cells car = [] := by
  have hz : car.size.toNat = 0 := by omega
  unfold cells
  rw [hz]
  cases car.direction <;> rfl

theorem disjoint_pairs {s : State} (hd : DisjointCars s) {i j : Nat} (hij : i ≠ j)
    {ci cj : Car} (hci : s[i]? = some ci) (hcj : s[j]? = some cj) :
    ∀ p ∈ cells ci, p ∉ cells cj := by
  have hi : i < s.length := by
    by_contra hge
    rw [List.getElem?_eq_none (by omega)] at hci
    cases hci
  have hj : j < s.length := by
    by_contra hge
    rw [List.getElem?_eq_none (by omega)] at hcj
    cases hcj
  have hgi : s[i] = ci := by
    have := List.getElem?_eq_getElem hi
    rw [hci] at this
    exact (Option.some.inj this).symm
  have hgj : s[j] = cj := by
    have := List.getElem?_eq_getElem hj
    rw [hcj] at this
    exact (Option.some.inj this).symm
  have hpw := List.pairwise_iff_getElem.mp hd
  rcases Nat.lt_or_ge i j with hlt | hge
  · have := hpw i j hi hj hlt
    rw [hgi, hgj] at this
    exact this
  · have hjl : j < i := by omega
    have := hpw j i hj hi hjl
    rw [hgi, hgj] at this
    intro p hpci hpcj
    exact this p hpcj hpci

theorem BaseInv_set {s : State} (hs : BaseInv s) {i : Nat} {car : Car} (c' : Car)
    (hcar : s[i]? = some car) (hname : c'.name = car.name)
    (hsub : ∀ p ∈ cells c', p ∈ cells car ∨ (inGrid p ∧ FreeCell s p)) :
    BaseInv (s.set i c') := by
  obtain ⟨hcars, hdisj⟩ := hs
  have hi : i < s.length := by
    by_contra hge
    rw [List.getElem?_eq_none (by omega)] at hcar
    cases hcar
  have hmemcar : car ∈ s := List.getElem?_mem hcar
  constructor
  · intro c hc
    rcases List.mem_or_eq_of_mem_set hc with hc | rfl
    · exact hcars c hc
    · refine ⟨hname ▸ (hcars car hmemcar).1, fun p hp => ?_⟩
      rcases hsub p hp with hp' | ⟨hgrid, _⟩
      · exact (hcars car hmemcar).2 p hp'
      · exact hgrid
  · rw [DisjointCars, List.pairwise_iff_getElem]
    intro a b ha hb hab
    rw [List.length_set] at ha hb
    have hga := List.getElem_set (l := s) (m := i) (a := c') (by rw [List.length_set]; exact ha)
    have hgb := List.getElem_set (l := s) (m := i) (a := c') (by rw [List.length_set]; exact hb)
    rw [hga, hgb]
    have hdp := List.pairwise_iff_getElem.mp hdisj
    by_cases hia : i = a
    · subst hia
      rw [if_pos rfl, if_neg (by omega)]
      intro p hp
      rcases hsub p hp with hp' | ⟨_, hfree⟩
      · have hci : s[i]? = some car := hcar
        have hcb : s[b]? = some s[b] := List.getElem?_eq_getElem hb
        exact disjoint_pairs hdisj (by omega) hci hcb p hp'
      · exact fun hpb => hfree s[b] (List.getElem_mem hb) hpb
    · rw [if_neg hia]
      by_cases hib : i = b
      · subst hib
        rw [if_pos rfl]
        intro p hpa hpc
        rcases hsub p hpc with hp' | ⟨_, hfree⟩
        · have hca : s[a]? = some s[a] := List.getElem?_eq_getElem ha
          exact disjoint_pairs hdisj (by omega) hcar hca p hp' hpa
        · exact hfree s[a] (List.getElem_mem ha) hpa
      · rw [if_neg hib]
        exact hdp a b ha hb hab

end RushHour

namespace RushHour

theorem shiftRight_sub {car : Car} (c' : Car) (hd : car.direction = Direction.HORIZONTAL)
    (hx : c'.x = car.x) (hy : c'.y = car.y + 1) (hsz : c'.size = car.size)
    (hdir : c'.direction = car.direction) :
    ∀ p ∈ cells c', p ∈ cells car ∨ p = (car.x, car.y + car.size) := by
  intro p hp
  obtain ⟨i, hi, rfl⟩ := (cells_memH (by rw [hdir, hd])).mp hp
  rw [hsz] at hi
  by_cases hlast : i + 1 = car.size.toNat
  · right
    have : ((i : Int) + 1) = car.size := by omega
    rw [hx, hy]
    rw [Prod.mk.injEq]
    constructor
    · rfl
    · omega
  · left
    rw [cells_memH hd]
    refine ⟨i + 1, by omega, ?_⟩
    rw [hx, hy]
    rw [Prod.mk.injEq]
    constructor
    · rfl
    · push_cast
      omega

theorem shiftLeft_sub {car : Car} (c' : Car) (hd : car.direction = Direction.HORIZONTAL)
    (hx : c'.x = car.x) (hy : c'.y = car.y - 1) (hsz : c'.size = car.size)
    (hdir : c'.direction = car.direction) :
    ∀ p ∈ cells c', p ∈ cells car ∨ p = (car.x, car.y - 1) := by
  intro p hp
  obtain ⟨i, hi, rfl⟩ := (cells_memH (by rw [hdir, hd])).mp hp
  rw [hsz] at hi
  by_cases hfirst : i = 0
  · right
    subst hfirst
    rw [hx, hy]
    rw [Prod.mk.injEq]
    exact ⟨rfl, by push_cast; omega⟩
  · left
    rw [cells_memH hd]
    refine ⟨i - 1, by omega, ?_⟩
    rw [hx, hy]
    rw [Prod.mk.injEq]
    refine ⟨rfl, ?_⟩
    have : ((i - 1 : Nat) : Int) = (i : Int) - 1 := by omega
    omega

theorem shiftDown_sub {car : Car} (c' : Car) (hd : car.direction = Direction.VERTICAL)
    (hx : c'.x = car.x + 1) (hy : c'.y = car.y) (hsz : c'.size = car.size)
    (hdir : c'.direction = car.direction) :
    ∀ p ∈ cells c', p ∈ cells car ∨ p = (car.x + car.size, car.y) := by
  intro p hp
  obtain ⟨i, hi, rfl⟩ := (cells_memV (by rw [hdir, hd])).mp hp
  rw [hsz] at hi
  by_cases hlast : i + 1 = car.size.toNat
  · right
    rw [hx, hy]
    rw [Prod.mk.injEq]
    exact ⟨by omega, rfl⟩
  · left
    rw [cells_memV hd]
    refine ⟨i + 1, by omega, ?_⟩
    rw [hx, hy]
    rw [Prod.mk.injEq]
    refine ⟨?_, rfl⟩
    push_cast
    omega

theorem shiftUp_sub {car : Car} (c' : Car) (hd : car.direction = Direction.VERTICAL)
    (hx : c'.x = car.x - 1) (hy : c'.y = car.y) (hsz : c'.size = car.size)
    (hdir : c'.direction = car.direction) :
    ∀ p ∈ cells c', p ∈ cells car ∨ p = (car.x - 1, car.y) := by
  intro p hp
  obtain ⟨i, hi, rfl⟩ := (cells_memV (by rw [hdir, hd])).mp hp
  rw [hsz] at hi
  by_cases hfirst : i = 0
  · right
    subst hfirst
    rw [hx, hy]
    rw [Prod.mk.injEq]
    exact ⟨by push_cast; omega, rfl⟩
  · left
    rw [cells_memV hd]
    refine ⟨i - 1, by omega, ?_⟩
    rw [hx, hy]
    rw [Prod.mk.injEq]
    refine ⟨?_, rfl⟩
    have : ((i - 1 : Nat) : Int) = (i : Int) - 1 := by omega
    omega

end RushHour

namespace RushHour

theorem step_preserves_BaseInv {s t : State} (hs : BaseInv s) (h : Step s t) :
    BaseInv t := by
  obtain ⟨L, hpm, htL⟩ := h
  have hdirs := pm_ok_dirs hpm
  obtain ⟨hcars, hdisj⟩ := hs
  obtain ⟨g, hgb, hgw, hcell⟩ := get_board_spec (fun c hc => ⟨hdirs c hc, (hcars c hc).2⟩)
  obtain ⟨g2, hgb2, hgen⟩ := possible_moves_board hpm
  rw [hgb] at hgb2
  rw [← Except.ok.inj hgb2] at hgen
  obtain ⟨e, he, Me, hMe, htMe⟩ := (genMoves_mem s.enum L hgen t).mp htL
  obtain ⟨i, car⟩ := e
  have hcar : s[i]? = some car := List.mk_mem_enum_iff_getElem?.mp he
  have hmemcar : car ∈ s := List.getElem?_mem hcar
  by_cases hsz : 1 ≤ car.size
  · have hexp := movesForCar_spec hgw hcell (fun c hc => (hcars c hc).1)
      (hdirs car hmemcar) (hcars car hmemcar).2 hsz i
    rw [hexp] at hMe
    rw [← Except.ok.inj hMe] at htMe
    rcases hdirs car hmemcar with hd | hd
    · have hbounds := carH_bounds hd (hcars car hmemcar).2 hsz
      unfold expectedMoves at htMe
      rw [hd] at htMe
      rcases List.mem_append.mp htMe with hm | hm
      · by_cases hcond : car.y + car.size < BOARD_SIZE ∧ FreeCell s (car.x, car.y + car.size)
        · rw [if_pos hcond] at hm
          rcases List.mem_singleton.mp hm with rfl
          refine BaseInv_set ⟨hcars, hdisj⟩
            (Car.mk car.name car.x (car.y + 1) car.size Direction.HORIZONTAL) hcar rfl ?_
          intro p hp
          rcases shiftRight_sub (Car.mk car.name car.x (car.y + 1) car.size Direction.HORIZONTAL) hd rfl rfl rfl hd.symm p hp with hp' | rfl
          · exact Or.inl hp'
          · refine Or.inr ⟨?_, hcond.2⟩
            rw [inGrid_iff]
            refine ⟨hbounds.1, hbounds.2.1, by omega, ?_⟩
            have := hcond.1
            revert this
            unfold BOARD_SIZE
            omega
        · rw [if_neg hcond] at hm
          cases hm
      · by_cases hcond : 0 < car.y ∧ FreeCell s (car.x, car.y - 1)
        · rw [if_pos hcond] at hm
          rcases List.mem_singleton.mp hm with rfl
          refine BaseInv_set ⟨hcars, hdisj⟩
            (Car.mk car.name car.x (car.y - 1) car.size Direction.HORIZONTAL) hcar rfl ?_
          intro p hp
          rcases shiftLeft_sub (Car.mk car.name car.x (car.y - 1) car.size Direction.HORIZONTAL) hd rfl rfl rfl hd.symm p hp with hp' | rfl
          · exact Or.inl hp'
          · refine Or.inr ⟨?_, hcond.2⟩
            rw [inGrid_iff]
            exact ⟨hbounds.1, hbounds.2.1, by omega, by omega⟩
        · rw [if_neg hcond] at hm
          cases hm
    · have hbounds := carV_bounds hd (hcars car hmemcar).2 hsz
      unfold expectedMoves at htMe
      rw [hd] at htMe
      rcases List.mem_append.mp htMe with hm | hm
      · by_cases hcond : car.x + car.size < BOARD_SIZE ∧ FreeCell s (car.x + car.size, car.y)
        · rw [if_pos hcond] at hm
          rcases List.mem_singleton.mp hm with rfl
          refine BaseInv_set ⟨hcars, hdisj⟩
            (Car.mk car.name (car.x + 1) car.y car.size Direction.VERTICAL) hcar rfl ?_
          intro p hp
          rcases shiftDown_sub (Car.mk car.name (car.x + 1) car.y car.size Direction.VERTICAL) hd rfl rfl rfl hd.symm p hp with hp' | rfl
          · exact Or.inl hp'
          · refine Or.inr ⟨?_, hcond.2⟩
            rw [inGrid_iff]
            refine ⟨by omega, ?_, hbounds.1, hbounds.2.1⟩
            have := hcond.1
            revert this
            unfold BOARD_SIZE
            omega
        · rw [if_neg hcond] at hm
          cases hm
      · by_cases hcond : 0 < car.x ∧ FreeCell s (car.x - 1, car.y)
        · rw [if_pos hcond] at hm
          rcases List.mem_singleton.mp hm with rfl
          refine BaseInv_set ⟨hcars, hdisj⟩
            (Car.mk car.name (car.x - 1) car.y car.size Direction.VERTICAL) hcar rfl ?_
          intro p hp
          rcases shiftUp_sub (Car.mk car.name (car.x - 1) car.y car.size Direction.VERTICAL) hd rfl rfl rfl hd.symm p hp with hp' | rfl
          · exact Or.inl hp'
          · refine Or.inr ⟨?_, hcond.2⟩
            rw [inGrid_iff]
            exact ⟨by omega, by omega, hbounds.1, hbounds.2.1⟩
        · rw [if_neg hcond] at hm
          cases hm
  · obtain ⟨c', rfl, hname, hsize, hdir2, _⟩ := movesForCar_mem_shape hMe htMe
    have hsize' : c'.size = car.size := hsize
    apply BaseInv_set ⟨hcars, hdisj⟩ c' hcar hname
    rw [cells_nil_of_nonpos (by omega)]
    intro p hp
    cases hp

theorem step_preserves_WellFormed {s t : State} (hs : WellFormed s) (h : Step s t) :
    WellFormed t := by
  refine ⟨step_preserves_BaseInv hs.1 h, ?_⟩
  obtain ⟨i, car, c', hcar, rfl, hname, hsize, hdir, _⟩ := step_shape h
  intro c hc
  rcases List.mem_or_eq_of_mem_set hc with hc | rfl
  · exact hs.2 c hc
  · have hmem := List.getElem?_mem hcar
    refine ⟨?_, ?_⟩
    · rw [hdir]
      exact (hs.2 car hmem).1
    · rw [hsize]
      exact (hs.2 car hmem).2

theorem reachN_preserves_WellFormed {s : State} {n : Nat} {t : State}
    (hs : WellFormed s) (h : ReachN s n t) : WellFormed t := by
  induction h with
  | refl s => exact hs
  | step hstep _ ih => exact ih (step_preserves_WellFormed hs hstep)

theorem reachN_preserves_BaseInv {s : State} {n : Nat} {t : State}
    (hs : BaseInv s) (h : ReachN s n t) : BaseInv t := by
  induction h with
  | refl s => exact hs
  | step hstep _ ih => exact ih (step_preserves_BaseInv hs hstep)

end RushHour

namespace RushHour

theorem foldl_occ_getLast {p : Int × Int} :
    ∀ (cars : List Car) (init : String),
      cars.foldl (fun acc c => if p ∈ cells c then c.name else acc) init =
        match (cars.filter fun c => decide (p ∈ cells c)).getLast? with
        | some c => c.name
        | none => init := by
  intro cars
  induction cars with
  | nil => intro init; rfl
  | cons c rest ih =>
    intro init
    rw [List.foldl_cons, List.filter_cons]
    by_cases hc : p ∈ cells c
    · rw [if_pos hc, if_pos (by simpa using hc)]
      rw [ih c.name]
      cases hf : rest.filter fun d => decide (p ∈ cells d) with
      | nil => rfl
      | cons d l' =>
        rw [List.getLast?_cons_cons]
        cases hgl : (d :: l').getLast? with
        | some e => simp only [hgl]
        | none =>
          exfalso
          rw [List.getLast?_eq_none_iff] at hgl
          exact List.cons_ne_nil d l' hgl
    · rw [if_neg hc, if_neg (by simpa using hc)]
      exact ih init

theorem occupant_getLast {cars : List Car} {p : Int × Int} :
    occupant cars p =
      match (cars.filter fun c => decide (p ∈ cells c)).getLast? with
      | some c => c.name
      | none => EMPTY_CELL :=
  foldl_occ_getLast cars EMPTY_CELL

theorem get_board_err :
    ∀ (cars : List Car) (b : Board), WellSized b → (∀ c ∈ cars, CarInGrid c) →
      (∃ c ∈ cars, c.direction = Direction.OTHER) →
      cars.foldlM writeCar b = Except.error () := by
  intro cars
  induction cars with
  | nil =>
    intro b _ _ hex
    obtain ⟨c, hc, _⟩ := hex
    cases hc
  | cons car rest ih =>
    intro b hb hgrid hex
    rw [List.foldlM_cons]
    cases hd : car.direction with
    | OTHER =>
      have hw : writeCar b car = Except.error () := by
        unfold writeCar
        rw [hd]
      rw [hw]
      rfl
    | HORIZONTAL =>
      obtain ⟨b₁, hw, hb₁, _⟩ :=
        writeCar_spec hb (Or.inl hd) (hgrid car (List.mem_cons_self _ _))
      rw [hw, exceptBind_ok]
      apply ih b₁ hb₁ (fun c hc => hgrid c (List.mem_cons_of_mem _ hc))
      obtain ⟨c, hc, hcd⟩ := hex
      rcases List.mem_cons.mp hc with rfl | hc
      · rw [hd] at hcd
        cases hcd
      · exact ⟨c, hc, hcd⟩
    | VERTICAL =>
      obtain ⟨b₁, hw, hb₁, _⟩ :=
        writeCar_spec hb (Or.inr hd) (hgrid car (List.mem_cons_self _ _))
      rw [hw, exceptBind_ok]
      apply ih b₁ hb₁ (fun c hc => hgrid c (List.mem_cons_of_mem _ hc))
      obtain ⟨c, hc, hcd⟩ := hex
      rcases List.mem_cons.mp hc with rfl | hc
      · rw [hd] at hcd
        cases hcd
      · exact ⟨c, hc, hcd⟩

end RushHour

namespace RushHour

theorem ne_of_y {c d : Car} (h : c.y ≠ d.y) : c ≠ d := fun he => h (congrArg Car.y he)

theorem ne_of_x {c d : Car} (h : c.x ≠ d.x) : c ≠ d := fun he => h (congrArg Car.x he)

theorem getElem?_of_lt {s : State} {i : Nat} (hi : i < s.length) :
    s[i]? = some (s.get ⟨i, hi⟩) := by
  rw [List.getElem?_eq_getElem hi]
  rfl

theorem upd_moved_eq {cars : State} {i j : Nat} (hi : i < cars.length)
    (hj : j < cars.length) {a b : Car} (ha : a ≠ cars.get ⟨i, hi⟩)
    (h : update_cars_tuple cars i a = update_cars_tuple cars j b) : i = j ∧ a = b := by
  unfold update_cars_tuple at h
  have hij : i = j := by
    by_contra hij
    have hcong := congrArg (fun l => l[i]?) h
    simp only at hcong
    rw [List.getElem?_set_self hi, List.getElem?_set_ne (fun hh => hij hh.symm),
      getElem?_of_lt hi] at hcong
    exact ha (Option.some.inj hcong)
  subst hij
  refine ⟨rfl, ?_⟩
  have hcong := congrArg (fun l => l[i]?) h
  simp only at hcong
  rw [List.getElem?_set_self hi, List.getElem?_set_self hi] at hcong
  exact Option.some.inj hcong

theorem mem_expected_casesH {cars : List Car} {i : Nat} {car : Car} {t : List Car}
    (hd : car.direction = Direction.HORIZONTAL) (ht : t ∈ expectedMoves cars i car) :
    (t = update_cars_tuple cars i
        (Car.mk car.name car.x (car.y + 1) car.size car.direction) ∧
      car.y + car.size < BOARD_SIZE ∧ FreeCell cars (car.x, car.y + car.size)) ∨
    (t = update_cars_tuple cars i
        (Car.mk car.name car.x (car.y - 1) car.size car.direction) ∧
      0 < car.y ∧ FreeCell cars (car.x, car.y - 1)) := by
  unfold expectedMoves at ht
  rw [hd] at ht
  rcases List.mem_append.mp ht with hm | hm
  · by_cases hc : car.y + car.size < BOARD_SIZE ∧ FreeCell cars (car.x, car.y + car.size)
    · rw [if_pos hc] at hm
      rw [hd]
      exact Or.inl ⟨List.mem_singleton.mp hm, hc⟩
    · rw [if_neg hc] at hm
      cases hm
  · by_cases hc : 0 < car.y ∧ FreeCell cars (car.x, car.y - 1)
    · rw [if_pos hc] at hm
      rw [hd]
      exact Or.inr ⟨List.mem_singleton.mp hm, hc⟩
    · rw [if_neg hc] at hm
      cases hm

theorem mem_expected_casesV {cars : List Car} {i : Nat} {car : Car} {t : List Car}
    (hd : car.direction = Direction.VERTICAL) (ht : t ∈ expectedMoves cars i car) :
    (t = update_cars_tuple cars i
        (Car.mk car.name (car.x + 1) car.y car.size car.direction) ∧
      car.x + car.size < BOARD_SIZE ∧ FreeCell cars (car.x + car.size, car.y)) ∨
    (t = update_cars_tuple cars i
        (Car.mk car.name (car.x - 1) car.y car.size car.direction) ∧
      0 < car.x ∧ FreeCell cars (car.x - 1, car.y)) := by
  unfold expectedMoves at ht
  rw [hd] at ht
  rcases List.mem_append.mp ht with hm | hm
  · by_cases hc : car.x + car.size < BOARD_SIZE ∧ FreeCell cars (car.x + car.size, car.y)
    · rw [if_pos hc] at hm
      rw [hd]
      exact Or.inl ⟨List.mem_singleton.mp hm, hc⟩
    · rw [if_neg hc] at hm
      cases hm
  · by_cases hc : 0 < car.x ∧ FreeCell cars (car.x - 1, car.y)
    · rw [if_pos hc] at hm
      rw [hd]
      exact Or.inr ⟨List.mem_singleton.mp hm, hc⟩
    · rw [if_neg hc] at hm
      cases hm

theorem expected_mem_right {cars : List Car} {i : Nat} {car : Car}
    (hd : car.direction = Direction.HORIZONTAL)
    (hc : car.y + car.size < BOARD_SIZE ∧ FreeCell cars (car.x, car.y + car.size)) :
    update_cars_tuple cars i (Car.mk car.name car.x (car.y + 1) car.size car.direction) ∈
      expectedMoves cars i car := by
  unfold expectedMoves
  rw [hd]
  exact List.mem_append.mpr (Or.inl (by rw [if_pos hc]; exact List.mem_singleton.mpr rfl))

theorem expected_mem_left {cars : List Car} {i : Nat} {car : Car}
    (hd : car.direction = Direction.HORIZONTAL)
    (hc : 0 < car.y ∧ FreeCell cars (car.x, car.y - 1)) :
    update_cars_tuple cars i (Car.mk car.name car.x (car.y - 1) car.size car.direction) ∈
      expectedMoves cars i car := by
  unfold expectedMoves
  rw [hd]
  exact List.mem_append.mpr (Or.inr (by rw [if_pos hc]; exact List.mem_singleton.mpr rfl))

theorem expected_mem_down {cars : List Car} {i : Nat} {car : Car}
    (hd : car.direction = Direction.VERTICAL)
    (hc : car.x + car.size < BOARD_SIZE ∧ FreeCell cars (car.x + car.size, car.y)) :
    update_cars_tuple cars i (Car.mk car.name (car.x + 1) car.y car.size car.direction) ∈
      expectedMoves cars i car := by
  unfold expectedMoves
  rw [hd]
  exact List.mem_append.mpr (Or.inl (by rw [if_pos hc]; exact List.mem_singleton.mpr rfl))

theorem expected_mem_up {cars : List Car} {i : Nat} {car : Car}
    (hd : car.direction = Direction.VERTICAL)
    (hc : 0 < car.x ∧ FreeCell cars (car.x - 1, car.y)) :
    update_cars_tuple cars i (Car.mk car.name (car.x - 1) car.y car.size car.direction) ∈
      expectedMoves cars i car := by
  unfold expectedMoves
  rw [hd]
  exact List.mem_append.mpr (Or.inr (by rw [if_pos hc]; exact List.mem_singleton.mpr rfl))

end RushHour

namespace RushHour

theorem read_setup_err_iff :
    ∀ records : List (String × Int × Int × Int × String),
      read_setup records = Except.error () ↔
        ∃ r ∈ records, r.2.2.2.2 ≠ "H" ∧ r.2.2.2.2 ≠ "V" := by
  intro records
  induction records with
  | nil =>
    constructor
    · intro h
      cases h
    · rintro ⟨r, hr, _⟩
      cases hr
  | cons r rest ih =>
    unfold read_setup parseCar
    by_cases hH : r.2.2.2.2 = "H"
    · rw [if_pos hH]
      cases hrest : read_setup rest with
      | ok cars =>
        constructor
        · intro h
          cases h
        · rintro ⟨q, hq, hqH, hqV⟩
          rcases List.mem_cons.mp hq with rfl | hq
          · exact absurd hH hqH
          · rw [← hrest]
            exact absurd (ih.mpr ⟨q, hq, hqH, hqV⟩) (by rw [hrest]; intro hh; cases hh)
      | error e =>
        constructor
        · intro _
          obtain ⟨q, hq, h1, h2⟩ := ih.mp (by rw [hrest])
          exact ⟨q, List.mem_cons_of_mem _ hq, h1, h2⟩
        · intro _
          rfl
    · rw [if_neg hH]
      by_cases hV : r.2.2.2.2 = "V"
      · rw [if_pos hV]
        cases hrest : read_setup rest with
        | ok cars =>
          constructor
          · intro h
            cases h
          · rintro ⟨q, hq, hqH, hqV⟩
            rcases List.mem_cons.mp hq with rfl | hq
            · exact absurd hV hqV
            · exact absurd (ih.mpr ⟨q, hq, hqH, hqV⟩) (by rw [hrest]; intro hh; cases hh)
        | error e =>
          constructor
          · intro _
            obtain ⟨q, hq, h1, h2⟩ := ih.mp (by rw [hrest])
            exact ⟨q, List.mem_cons_of_mem _ hq, h1, h2⟩
          · intro _
            rfl
      · rw [if_neg hV]
        constructor
        · intro _
          exact ⟨r, List.mem_cons_self _ _, hH, hV⟩
        · intro _
          rfl

theorem moveLines_self : ∀ t : List Car, moveLines t t = [] := by
  intro t
  induction t with
  | nil => rfl
  | cons c rest ih =>
    unfold moveLines at ih ⊢
    rw [List.zip_cons_cons, List.flatMap_cons, if_pos rfl, List.nil_append]
    exact ih

theorem lists_eq_of_agree {α : Type} :
    ∀ (a b : List α), a.length = b.length → (∀ j : Nat, a[j]? = b[j]?) → a = b := by
  intro a b hlen hag
  apply List.ext_getElem?
  exact hag

end RushHour

namespace RushHour

theorem moveLines_cons (ca cb : Car) (ta tb : List Car) :
    moveLines (ca :: ta) (cb :: tb) =
      (if ca = cb then []
        else
          (if cb.x < ca.x then [ca.name ++ "-Up"] else []) ++
          (if ca.x < cb.x then [ca.name ++ "-Down"] else []) ++
          (if cb.y < ca.y then [ca.name ++ "-Left"] else []) ++
          (if ca.y < cb.y then [ca.name ++ "-Right"] else [])) ++ moveLines ta tb := by
  unfold moveLines
  rw [List.zip_cons_cons, List.flatMap_cons]

theorem moveLines_one :
    ∀ (i : Nat) (a b : List Car), a.length = b.length →
      (∀ j : Nat, j ≠ i → a[j]? = b[j]?) →
      ∀ {ca cb : Car}, a[i]? = some ca → b[i]? = some cb →
        ca.name = cb.name →
        ((ca.x = cb.x ∧ ca.y ≠ cb.y) ∨ (ca.y = cb.y ∧ ca.x ≠ cb.x)) →
        moveLines a b = [moveLabel ca cb] := by
  intro i
  induction i with
  | zero =>
    intro a b hlen hag ca cb hca hcb hname hmove
    cases a with
    | nil => cases hca
    | cons ca' ta =>
      cases b with
      | nil => cases hcb
      | cons cb' tb =>
        rw [List.getElem?_cons_zero] at hca hcb
        have hca' : ca' = ca := Option.some.inj hca
        have hcb' : cb' = cb := Option.some.inj hcb
        subst hca'
        subst hcb'
        have htails : ta = tb := by
          apply List.ext_getElem?
          intro j
          have := hag (j + 1) (by omega)
          rw [List.getElem?_cons_succ, List.getElem?_cons_succ] at this
          exact this
        subst htails
        rw [moveLines_cons, moveLines_self, List.append_nil]
        have hne : ca' ≠ cb' := by
          rcases hmove with ⟨_, hy⟩ | ⟨_, hx⟩
          · exact ne_of_y hy
          · exact ne_of_x hx
        rw [if_neg hne]
        rcases hmove with ⟨hx, hy⟩ | ⟨hy, hx⟩
        · have hnUp : ¬ cb'.x < ca'.x := by omega
          have hnDown : ¬ ca'.x < cb'.x := by omega
          rcases lt_or_gt_of_ne hy with hlt | hlt
          · have hnLeft : ¬ cb'.y < ca'.y := by omega
            rw [if_neg hnUp, if_neg hnDown, if_neg hnLeft, if_pos hlt]
            unfold moveLabel
            rw [if_neg hnUp, if_neg hnDown, if_neg hnLeft]
            rfl
          · have hLeft : cb'.y < ca'.y := hlt
            have hnRight : ¬ ca'.y < cb'.y := by omega
            rw [if_neg hnUp, if_neg hnDown, if_pos hLeft, if_neg hnRight]
            unfold moveLabel
            rw [if_neg hnUp, if_neg hnDown, if_pos hLeft]
            rfl
        · rcases lt_or_gt_of_ne hx with hlt | hlt
          · have hnUp : ¬ cb'.x < ca'.x := by omega
            have hnLeft : ¬ cb'.y < ca'.y := by omega
            have hnRight : ¬ ca'.y < cb'.y := by omega
            rw [if_neg hnUp, if_pos hlt, if_neg hnLeft, if_neg hnRight]
            unfold moveLabel
            rw [if_neg hnUp, if_pos hlt]
            rfl
          · have hUp : cb'.x < ca'.x := hlt
            have hnDown : ¬ ca'.x < cb'.x := by omega
            have hnLeft : ¬ cb'.y < ca'.y := by omega
            have hnRight : ¬ ca'.y < cb'.y := by omega
            rw [if_pos hUp, if_neg hnDown, if_neg hnLeft, if_neg hnRight]
            unfold moveLabel
            rw [if_pos hUp]
            rfl
  | succ n ih =>
    intro a b hlen hag ca cb hca hcb hname hmove
    cases a with
    | nil => cases hca
    | cons c ta =>
      cases b with
      | nil => cases hcb
      | cons d tb =>
        have hhead : c = d := by
          have := hag 0 (by omega)
          rw [List.getElem?_cons_zero, List.getElem?_cons_zero] at this
          exact Option.some.inj this
        subst hhead
        rw [moveLines_cons, if_pos rfl, List.nil_append]
        apply ih ta tb
        · have : ta.length + 1 = tb.length + 1 := by
            simpa using hlen
          omega
        · intro j hj
          have := hag (j + 1) (by omega)
          rw [List.getElem?_cons_succ, List.getElem?_cons_succ] at this
          exact this
        · rw [← List.getElem?_cons_succ (a := c)]
          exact hca
        · rw [← List.getElem?_cons_succ (a := c)]
          exact hcb
        · exact hname
        · exact hmove

theorem flatMap_length_singleton {α β : Type} (f : α → List β) :
    ∀ l : List α, (∀ x ∈ l, (f x).length = 1) → (l.flatMap f).length = l.length := by
  intro l
  induction l with
  | nil => intro _; rfl
  | cons x rest ih =>
    intro h
    rw [List.flatMap_cons, List.length_append, h x (List.mem_cons_self _ _),
      ih (fun y hy => h y (List.mem_cons_of_mem _ hy))]
    simp only [List.length_cons]
    omega

theorem mem_L_unique {cars : State} (hwf : WellFormed cars) {i : Nat}
    (hi : i < cars.length) {c' : Car} (hc' : c' ≠ cars.get ⟨i, hi⟩)
    {L : List (List Car)} (hL : possible_moves cars = Except.ok L)
    (ht : update_cars_tuple cars i c' ∈ L) :
    update_cars_tuple cars i c' ∈ expectedMoves cars i (cars.get ⟨i, hi⟩) := by
  rw [possible_moves_spec hwf] at hL
  rw [← Except.ok.inj hL] at ht
  obtain ⟨e, he, hte⟩ := List.mem_flatMap.mp ht
  obtain ⟨j, d⟩ := e
  have hd : cars[j]? = some d := List.mk_mem_enum_iff_getElem?.mp he
  have hj : j < cars.length := by
    by_contra hge
    rw [List.getElem?_eq_none (by omega)] at hd
    cases hd
  have hdmem : d ∈ cars := List.getElem?_mem hd
  have hdget : cars.get ⟨j, hj⟩ = d := by
    have := getElem?_of_lt hj
    rw [hd] at this
    exact (Option.some.inj this).symm
  rcases (hwf.2 d hdmem).1 with hdir | hdir
  · rcases mem_expected_casesH hdir hte with ⟨heq, hcond⟩ | ⟨heq, hcond⟩
    · obtain ⟨hij, hcc⟩ := upd_moved_eq hi hj hc' heq
      subst hij
      rw [hdget]
      exact hte
    · obtain ⟨hij, hcc⟩ := upd_moved_eq hi hj hc' heq
      subst hij
      rw [hdget]
      exact hte
  · rcases mem_expected_casesV hdir hte with ⟨heq, hcond⟩ | ⟨heq, hcond⟩
    · obtain ⟨hij, hcc⟩ := upd_moved_eq hi hj hc' heq
      subst hij
      rw [hdget]
      exact hte
    · obtain ⟨hij, hcc⟩ := upd_moved_eq hi hj hc' heq
      subst hij
      rw [hdget]
      exact hte

end RushHour

namespace RushHour

theorem movesForCar_mem_axis {board : Board} {cars : List Car} {i : Nat} {car : Car}
    {M : List (List Car)} {t : List Car} (h : movesForCar board cars i car = Except.ok M)
    (ht : t ∈ M) :
    ∃ c', t = update_cars_tuple cars i c' ∧ c'.name = car.name ∧ c'.size = car.size ∧
      c'.direction = car.direction ∧
      ((car.direction = Direction.HORIZONTAL ∧ c'.x = car.x ∧
          (c'.y = car.y + 1 ∨ c'.y = car.y - 1)) ∨
        (car.direction = Direction.VERTICAL ∧ c'.y = car.y ∧
          (c'.x = car.x + 1 ∨ c'.x = car.x - 1))) := by
  unfold movesForCar at h
  cases hd : car.direction with
  | HORIZONTAL =>
    rw [hd] at h
    obtain ⟨x, y, hx, hy, rfl⟩ := exAppend_eq_ok.mp h
    rcases List.mem_append.mp ht with hm | hm
    · exact ⟨_, rightMoves_shape hx t hm, rfl, rfl, hd, Or.inl ⟨rfl, rfl, Or.inl rfl⟩⟩
    · exact ⟨_, leftMoves_shape hy t hm, rfl, rfl, hd, Or.inl ⟨rfl, rfl, Or.inr rfl⟩⟩
  | VERTICAL =>
    rw [hd] at h
    obtain ⟨x, y, hx, hy, rfl⟩ := exAppend_eq_ok.mp h
    rcases List.mem_append.mp ht with hm | hm
    · exact ⟨_, downMoves_shape hx t hm, rfl, rfl, hd, Or.inr ⟨rfl, rfl, Or.inl rfl⟩⟩
    · exact ⟨_, upMoves_shape hy t hm, rfl, rfl, hd, Or.inr ⟨rfl, rfl, Or.inr rfl⟩⟩
  | OTHER =>
    rw [hd] at h
    cases h

theorem step_shape_axis {s t : State} (h : Step s t) :
    ∃ (i : Nat) (car c' : Car), s[i]? = some car ∧ t = update_cars_tuple s i c' ∧
      c'.name = car.name ∧ c'.size = car.size ∧ c'.direction = car.direction ∧
      ((car.direction = Direction.HORIZONTAL ∧ c'.x = car.x ∧
          (c'.y = car.y + 1 ∨ c'.y = car.y - 1)) ∨
        (car.direction = Direction.VERTICAL ∧ c'.y = car.y ∧
          (c'.x = car.x + 1 ∨ c'.x = car.x - 1))) := by
  obtain ⟨L, hL, ht⟩ := h
  obtain ⟨g, hgb, hgen⟩ := possible_moves_board hL
  obtain ⟨e, he, Me, hMe, htMe⟩ := (genMoves_mem s.enum L hgen t).mp ht
  obtain ⟨c', rfl, hname, hsize, hdir, hmove⟩ := movesForCar_mem_axis hMe htMe
  exact ⟨e.1, e.2, c', List.mem_enum_iff_getElem?.mp he, rfl, hname, hsize, hdir, hmove⟩

/-- Claim C2: for every well-formed state, the move generator yields exactly
the legal one-cell slides.  A successor moving a horizontal vehicle right is
produced iff `col + length < 6` and the cell immediately right of its
rightmost cell is occupied by no vehicle; left iff `col > 0` and the cell
immediately left of its leftmost cell is free; symmetrically down/up for
vertical vehicles.  Every yielded successor equals the input state except
that the moved vehicle is shifted by exactly one cell along its own
orientation axis — column shifted with row fixed when it is horizontal, row
shifted with column fixed when it is vertical — with name, length and
orientation unchanged. -/
theorem C2_move_generator_exact {cars : State} (hwf : WellFormed cars) :
    ∃ L, possible_moves cars = Except.ok L ∧
      (∀ (i : Nat) (hi : i < cars.length) (car : Car), cars.get ⟨i, hi⟩ = car →
        (car.direction = Direction.HORIZONTAL →
          ((update_cars_tuple cars i
              (Car.mk car.name car.x (car.y + 1) car.size car.direction) ∈ L) ↔
            (car.y + car.size < BOARD_SIZE ∧
              FreeCell cars (car.x, car.y + car.size))) ∧
          ((update_cars_tuple cars i
              (Car.mk car.name car.x (car.y - 1) car.size car.direction) ∈ L) ↔
            (0 < car.y ∧ FreeCell cars (car.x, car.y - 1)))) ∧
        (car.direction = Direction.VERTICAL →
          ((update_cars_tuple cars i
              (Car.mk car.name (car.x + 1) car.y car.size car.direction) ∈ L) ↔
            (car.x + car.size < BOARD_SIZE ∧
              FreeCell cars (car.x + car.size, car.y))) ∧
          ((update_cars_tuple cars i
              (Car.mk car.name (car.x - 1) car.y car.size car.direction) ∈ L) ↔
            (0 < car.x ∧ FreeCell cars (car.x - 1, car.y))))) ∧
      (∀ t ∈ L, ∃ (i : Nat) (car c' : Car), cars[i]? = some car ∧
        t = update_cars_tuple cars i c' ∧ c'.name = car.name ∧ c'.size = car.size ∧
        c'.direction = car.direction ∧
        ((car.direction = Direction.HORIZONTAL ∧ c'.x = car.x ∧
            (c'.y = car.y + 1 ∨ c'.y = car.y - 1)) ∨
          (car.direction = Direction.VERTICAL ∧ c'.y = car.y ∧
            (c'.x = car.x + 1 ∨ c'.x = car.x - 1)))) := by
  refine ⟨_, possible_moves_spec hwf, ?_, ?_⟩
  · intro i hi car hcar
    subst hcar
    have henum : (i, cars.get ⟨i, hi⟩) ∈ cars.enum :=
      List.mk_mem_enum_iff_getElem?.mpr (getElem?_of_lt hi)
    constructor
    · intro hd
      constructor
      · constructor
        · intro hmem
          have hne : Car.mk (cars.get ⟨i, hi⟩).name (cars.get ⟨i, hi⟩).x
              ((cars.get ⟨i, hi⟩).y + 1) (cars.get ⟨i, hi⟩).size
              (cars.get ⟨i, hi⟩).direction ≠ cars.get ⟨i, hi⟩ :=
            ne_of_y (by simp only; omega)
          have hu := mem_L_unique hwf hi hne (possible_moves_spec hwf) hmem
          rcases mem_expected_casesH hd hu with ⟨heq, hcond⟩ | ⟨heq, hcond⟩
          · exact hcond
          · exfalso
            obtain ⟨_, hcc⟩ := upd_moved_eq hi hi hne heq
            have := congrArg Car.y hcc
            simp only at this
            omega
        · intro hcond
          exact List.mem_flatMap.mpr ⟨_, henum, expected_mem_right hd hcond⟩
      · constructor
        · intro hmem
          have hne : Car.mk (cars.get ⟨i, hi⟩).name (cars.get ⟨i, hi⟩).x
              ((cars.get ⟨i, hi⟩).y - 1) (cars.get ⟨i, hi⟩).size
              (cars.get ⟨i, hi⟩).direction ≠ cars.get ⟨i, hi⟩ :=
            ne_of_y (by simp only; omega)
          have hu := mem_L_unique hwf hi hne (possible_moves_spec hwf) hmem
          rcases mem_expected_casesH hd hu with ⟨heq, hcond⟩ | ⟨heq, hcond⟩
          · exfalso
            obtain ⟨_, hcc⟩ := upd_moved_eq hi hi hne heq
            have := congrArg Car.y hcc
            simp only at this
            omega
          · exact hcond
        · intro hcond
          exact List.mem_flatMap.mpr ⟨_, henum, expected_mem_left hd hcond⟩
    · intro hd
      constructor
      · constructor
        · intro hmem
          have hne : Car.mk (cars.get ⟨i, hi⟩).name ((cars.get ⟨i, hi⟩).x + 1)
              (cars.get ⟨i, hi⟩).y (cars.get ⟨i, hi⟩).size
              (cars.get ⟨i, hi⟩).direction ≠ cars.get ⟨i, hi⟩ :=
            ne_of_x (by simp only; omega)
          have hu := mem_L_unique hwf hi hne (possible_moves_spec hwf) hmem
          rcases mem_expected_casesV hd hu with ⟨heq, hcond⟩ | ⟨heq, hcond⟩
          · exact hcond
          · exfalso
            obtain ⟨_, hcc⟩ := upd_moved_eq hi hi hne heq
            have := congrArg Car.x hcc
            simp only at this
            omega
        · intro hcond
          exact List.mem_flatMap.mpr ⟨_, henum, expected_mem_down hd hcond⟩
      · constructor
        · intro hmem
          have hne : Car.mk (cars.get ⟨i, hi⟩).name ((cars.get ⟨i, hi⟩).x - 1)
              (cars.get ⟨i, hi⟩).y (cars.get ⟨i, hi⟩).size
              (cars.get ⟨i, hi⟩).direction ≠ cars.get ⟨i, hi⟩ :=
            ne_of_x (by simp only; omega)
          have hu := mem_L_unique hwf hi hne (possible_moves_spec hwf) hmem
          rcases mem_expected_casesV hd hu with ⟨heq, hcond⟩ | ⟨heq, hcond⟩
          · exfalso
            obtain ⟨_, hcc⟩ := upd_moved_eq hi hi hne heq
            have := congrArg Car.x hcc
            simp only at this
            omega
          · exact hcond
        · intro hcond
          exact List.mem_flatMap.mpr ⟨_, henum, expected_mem_up hd hcond⟩
  · intro t ht
    exact step_shape_axis ⟨_, possible_moves_spec hwf, ht⟩

/-- Witness for C2 at a concrete well-formed two-car configuration. -/
theorem C2_move_generator_exact_witness :
    WellFormed [Car.mk "r" 2 2 2 Direction.HORIZONTAL, Car.mk "b" 2 4 2 Direction.VERTICAL] ∧
    (∃ L, possible_moves
        [Car.mk "r" 2 2 2 Direction.HORIZONTAL, Car.mk "b" 2 4 2 Direction.VERTICAL] =
        Except.ok L) :=
  ⟨by decide,
    (C2_move_generator_exact (by decide)).elim fun L hL => ⟨L, hL.1⟩⟩

end RushHour

namespace RushHour

/-- Claim C3 (counterexample): two states listing the same two vehicles with
identical placements in opposite order compare unequal, and the visited-set
membership test used by the solver does not identify them. -/
theorem C3_order_counterexample :
    (∀ c : Car,
      c ∈ ([Car.mk "a" 0 0 2 Direction.HORIZONTAL, Car.mk "b" 2 0 2 Direction.VERTICAL] : State) ↔
      c ∈ ([Car.mk "b" 2 0 2 Direction.VERTICAL, Car.mk "a" 0 0 2 Direction.HORIZONTAL] : State)) ∧
    ([Car.mk "a" 0 0 2 Direction.HORIZONTAL, Car.mk "b" 2 0 2 Direction.VERTICAL] : State) ≠
      [Car.mk "b" 2 0 2 Direction.VERTICAL, Car.mk "a" 0 0 2 Direction.HORIZONTAL] ∧
    ([Car.mk "a" 0 0 2 Direction.HORIZONTAL, Car.mk "b" 2 0 2 Direction.VERTICAL] : State) ∉
      ([[Car.mk "b" 2 0 2 Direction.VERTICAL, Car.mk "a" 0 0 2 Direction.HORIZONTAL]] :
        List State) := by
  refine ⟨fun c => ?_, by decide, by decide⟩
  simp [List.mem_cons, or_comm]

/-- Claim C3 (amended): the solver's visited-set identifies two states iff
their vehicle tuples are equal component by component in the same listing
order; states with identical placements in a different order are treated as
different configurations. -/
theorem C3_state_equality_amended :
    ∀ (s : State) (seen : List State),
      s ∈ seen ↔ ∃ t ∈ seen, List.Forall₂ (fun a b : Car => a = b) s t := by
  intro s seen
  constructor
  · intro hs
    exact ⟨s, hs, List.forall₂_refl s⟩
  · rintro ⟨t, ht, hft⟩
    have hst : s = t := by
      rw [List.forall₂_eq_eq_eq] at hft
      exact hft
    exact hst ▸ ht

/-- Claim C4 (counterexample): a configuration with two vehicles sharing the
same name and overlapping footprints (cell (0,1) is covered by both) passes
`read_setup` untouched, builds a board without any error, and is searched to
normal termination by `run`; no error is raised before or during the
search. -/
theorem C4_malformed_counterexample :
    read_setup [("a", 0, 0, 2, "H"), ("a", 0, 1, 2, "H")] =
      Except.ok [Car.mk "a" 0 0 2 Direction.HORIZONTAL, Car.mk "a" 0 1 2 Direction.HORIZONTAL] ∧
    (∃ g, get_board [Car.mk "a" 0 0 2 Direction.HORIZONTAL,
      Car.mk "a" 0 1 2 Direction.HORIZONTAL] = Except.ok g) ∧
    run 64 [Car.mk "a" 0 0 2 Direction.HORIZONTAL, Car.mk "a" 0 1 2 Direction.HORIZONTAL] =
      some (RunOutcome.finished []) ∧
    ((0 : Int), (1 : Int)) ∈ cells (Car.mk "a" 0 0 2 Direction.HORIZONTAL) ∧
    ((0 : Int), (1 : Int)) ∈ cells (Car.mk "a" 0 1 2 Direction.HORIZONTAL) := by
  refine ⟨by decide, ⟨_, rfl⟩, by decide, by decide, by decide⟩

/-- Claim C4 (amended): the only validation before the search is the
orientation-code dispatch of `read_setup`, which raises exactly when some
record's code is neither "H" nor "V"; board construction on in-bounds
vehicles raises exactly when some direction is invalid, accepting duplicate
names and overlapping footprints silently. -/
theorem C4_validation_amended :
    (∀ records : List (String × Int × Int × Int × String),
      read_setup records = Except.error () ↔
        ∃ r ∈ records, r.2.2.2.2 ≠ "H" ∧ r.2.2.2.2 ≠ "V") ∧
    (∀ cars : State, (∀ c ∈ cars, CarInGrid c) →
      (get_board cars = Except.error () ↔
        ∃ c ∈ cars, c.direction = Direction.OTHER)) := by
  refine ⟨read_setup_err_iff, fun cars hgrid => ?_⟩
  constructor
  · intro herr
    by_contra hno
    have hdirs : ∀ c ∈ cars,
        c.direction = Direction.HORIZONTAL ∨ c.direction = Direction.VERTICAL := by
      intro c hc
      cases hcd : c.direction with
      | HORIZONTAL => exact Or.inl rfl
      | VERTICAL => exact Or.inr rfl
      | OTHER => exact absurd ⟨c, hc, hcd⟩ hno
    obtain ⟨g, hg, _, _⟩ := get_board_spec (fun c hc => ⟨hdirs c hc, hgrid c hc⟩)
    rw [herr] at hg
    cases hg
  · intro hex
    exact get_board_err cars emptyBoard emptyBoard_wellSized hgrid hex

/-- Witness for the C4 amended theorem: a duplicate-name overlapping
configuration passes both validation layers. -/
theorem C4_validation_amended_witness :
    (read_setup [("a", 0, 0, 2, "X")] = Except.error ()) ∧
    ¬ get_board [Car.mk "a" 0 0 2 Direction.HORIZONTAL,
      Car.mk "a" 0 1 2 Direction.HORIZONTAL] = Except.error () := by
  constructor
  · exact (C4_validation_amended.1 [("a", 0, 0, 2, "X")]).mpr
      ⟨("a", 0, 0, 2, "X"), by decide, by decide, by decide⟩
  · intro h
    have := (C4_validation_amended.2
      [Car.mk "a" 0 0 2 Direction.HORIZONTAL, Car.mk "a" 0 1 2 Direction.HORIZONTAL]
      (by decide)).mp h
    revert this
    decide

/-- Claim C6 (counterexample): a state whose vehicles all lie on the board
with pairwise-disjoint footprints, but one of which is named like the
empty-cell marker " ", has a generated successor with overlapping
footprints: the marker-named car's cells read as empty, so car "b" slides
left onto cell (0,1) already covered by the marker-named car. -/
theorem C6_marker_name_counterexample :
    (∀ c ∈ ([Car.mk " " 0 0 2 Direction.HORIZONTAL,
        Car.mk "b" 0 2 2 Direction.HORIZONTAL] : State), CarInGrid c) ∧
    DisjointCars [Car.mk " " 0 0 2 Direction.HORIZONTAL, Car.mk "b" 0 2 2 Direction.HORIZONTAL] ∧
    possible_moves [Car.mk " " 0 0 2 Direction.HORIZONTAL, Car.mk "b" 0 2 2 Direction.HORIZONTAL] =
      Except.ok
        [[Car.mk " " 0 0 2 Direction.HORIZONTAL, Car.mk "b" 0 3 2 Direction.HORIZONTAL],
         [Car.mk " " 0 0 2 Direction.HORIZONTAL, Car.mk "b" 0 1 2 Direction.HORIZONTAL]] ∧
    ¬ DisjointCars [Car.mk " " 0 0 2 Direction.HORIZONTAL,
        Car.mk "b" 0 1 2 Direction.HORIZONTAL] := by
  refine ⟨by decide, by decide, by decide, by decide⟩

/-- Claim C6 (amended): for every state reachable via the move generator
from an initial configuration whose footprints are in bounds and pairwise
disjoint and whose vehicle names differ from the empty-cell marker, every
vehicle's footprint lies within the 6x6 grid and no two vehicles'
footprints share a cell. -/
theorem C6_reachable_invariant_amended {s : State} (hs : BaseInv s) :
    ∀ (n : Nat) (t : State), ReachN s n t →
      (∀ c ∈ t, CarInGrid c) ∧ DisjointCars t := by
  intro n t h
  have := reachN_preserves_BaseInv hs h
  exact ⟨fun c hc => (this.1 c hc).2, this.2⟩

/-- Witness for the C6 amended theorem at a concrete two-car configuration
and its one-step successor. -/
theorem C6_reachable_invariant_amended_witness :
    BaseInv [Car.mk "r" 2 2 2 Direction.HORIZONTAL] ∧
    ((∀ c ∈ ([Car.mk "r" 2 3 2 Direction.HORIZONTAL] : State), CarInGrid c) ∧
      DisjointCars [Car.mk "r" 2 3 2 Direction.HORIZONTAL]) :=
  ⟨by decide,
    C6_reachable_invariant_amended (s := [Car.mk "r" 2 2 2 Direction.HORIZONTAL]) (by decide) 1
      [Car.mk "r" 2 3 2 Direction.HORIZONTAL]
      (ReachN.step
        ⟨[[Car.mk "r" 2 3 2 Direction.HORIZONTAL], [Car.mk "r" 2 1 2 Direction.HORIZONTAL]],
          by decide, by decide⟩
        (ReachN.refl _))⟩

/-- Claim C7: a state satisfies the goal condition tested by `run` iff the
fixed target vehicle value, name "r" at row 2 and column 4, length 2,
horizontal, appears by exact value equality among the state's vehicles; its
rightmost cell, column `y + size - 1 = 5`, touches the right board edge. -/
theorem C7_goal_condition :
    (∀ s : State, IsGoal s ↔ Car.mk "r" 2 4 2 Direction.HORIZONTAL ∈ s) ∧
    ENDPOINT = Car.mk "r" 2 4 2 Direction.HORIZONTAL ∧
    ENDPOINT.y + ENDPOINT.size = BOARD_SIZE :=
  ⟨fun _ => Iff.rfl, rfl, rfl⟩

/-- Claim C8 (counterexample): on a two-state path whose single consecutive
pair differs in exactly one vehicle's position, the formatter emits two
directional steps rather than one, because the vehicle's row and column
both changed. -/
theorem C8_diagonal_counterexample :
    print_moves [[Car.mk "a" 0 0 2 Direction.HORIZONTAL],
        [Car.mk "a" 1 1 2 Direction.HORIZONTAL]] =
      ["Total number of steps: 1", "a-Down", "a-Right"] := by
  decide

/-- Claim C8 (amended): for every path in which each consecutive pair
differs in exactly one vehicle's position along exactly one axis, the
formatter emits the step-count header (path length minus one) followed by
exactly one directional step per consecutive pair.  That step concerns the
changed tuple position — the pair of cars `(ca, cb)` at an index where the
two states disagree while they agree at every other index — and is labeled
with that changed vehicle's name and the direction given by the sign of its
row or column delta: Up when its row decreased, Down when it increased,
Left when its column decreased, Right when it increased. -/
theorem C8_formatter_amended (h : List (List Car))
    (hp : ∀ q ∈ h.zip h.tail, OneCarMoved q.1 q.2) :
    print_moves h = ("Total number of steps: " ++ toString ((h.length : Int) - 1)) ::
      (h.zip h.tail).flatMap (fun q => moveLines q.1 q.2) ∧
    (∀ q ∈ h.zip h.tail, ∃ (i : Nat) (ca cb : Car), q.1[i]? = some ca ∧ q.2[i]? = some cb ∧
      (∀ j : Nat, j ≠ i → q.1[j]? = q.2[j]?) ∧ ca.name = cb.name ∧
      ((ca.x = cb.x ∧ ca.y ≠ cb.y) ∨ (ca.y = cb.y ∧ ca.x ≠ cb.x)) ∧
      (cb.x < ca.x → moveLines q.1 q.2 = [ca.name ++ "-Up"]) ∧
      (ca.x < cb.x → moveLines q.1 q.2 = [ca.name ++ "-Down"]) ∧
      (cb.y < ca.y → moveLines q.1 q.2 = [ca.name ++ "-Left"]) ∧
      (ca.y < cb.y → moveLines q.1 q.2 = [ca.name ++ "-Right"])) ∧
    ((h.zip h.tail).flatMap fun q => moveLines q.1 q.2).length = (h.zip h.tail).length := by
  have hone : ∀ q ∈ h.zip h.tail, ∃ (i : Nat) (ca cb : Car), q.1[i]? = some ca ∧
      q.2[i]? = some cb ∧ (∀ j : Nat, j ≠ i → q.1[j]? = q.2[j]?) ∧ ca.name = cb.name ∧
      ((ca.x = cb.x ∧ ca.y ≠ cb.y) ∨ (ca.y = cb.y ∧ ca.x ≠ cb.x)) ∧
      moveLines q.1 q.2 = [moveLabel ca cb] := by
    intro q hq
    obtain ⟨hlen, i, hi, hag, ca, cb, hca, hcb, hname, hsz, hdir, hmove⟩ := hp q hq
    exact ⟨i, ca, cb, hca, hcb, hag, hname, hmove,
      moveLines_one i q.1 q.2 hlen hag hca hcb hname hmove⟩
  refine ⟨rfl, ?_, ?_⟩
  · intro q hq
    obtain ⟨i, ca, cb, hca, hcb, hag, hname, hmove, hml⟩ := hone q hq
    refine ⟨i, ca, cb, hca, hcb, hag, hname, hmove, ?_, ?_, ?_, ?_⟩
    · intro hUp
      rw [hml]
      unfold moveLabel
      rw [if_pos hUp]
    · intro hDown
      rw [hml]
      unfold moveLabel
      rw [if_neg (by omega), if_pos hDown]
    · intro hLeft
      have hxeq : ca.x = cb.x := by
        rcases hmove with ⟨hx, _⟩ | ⟨hy, _⟩
        · exact hx
        · exact absurd hy (by omega)
      rw [hml]
      unfold moveLabel
      rw [if_neg (by omega), if_neg (by omega), if_pos hLeft]
    · intro hRight
      have hxeq : ca.x = cb.x := by
        rcases hmove with ⟨hx, _⟩ | ⟨hy, _⟩
        · exact hx
        · exact absurd hy (by omega)
      rw [hml]
      unfold moveLabel
      rw [if_neg (by omega), if_neg (by omega), if_neg (by omega)]
  · apply flatMap_length_singleton
    intro q hq
    obtain ⟨i, ca, cb, _, _, _, _, _, hml⟩ := hone q hq
    rw [hml]
    rfl

/-- Witness for the C8 amended theorem on a concrete one-move path. -/
theorem C8_formatter_amended_witness :
    print_moves [[Car.mk "a" 0 0 2 Direction.HORIZONTAL],
        [Car.mk "a" 1 0 2 Direction.HORIZONTAL]] =
      ("Total number of steps: " ++ toString ((2 : Int) - 1)) ::
        ([([Car.mk "a" 0 0 2 Direction.HORIZONTAL],
            [Car.mk "a" 1 0 2 Direction.HORIZONTAL])].flatMap
          fun q => moveLines q.1 q.2) := by
  have hp : ∀ q ∈ ([[Car.mk "a" 0 0 2 Direction.HORIZONTAL],
      [Car.mk "a" 1 0 2 Direction.HORIZONTAL]] : List (List Car)).zip
        ([[Car.mk "a" 0 0 2 Direction.HORIZONTAL],
          [Car.mk "a" 1 0 2 Direction.HORIZONTAL]] : List (List Car)).tail,
      OneCarMoved q.1 q.2 := by
    intro q hq
    simp only [List.tail_cons, List.zip_cons_cons, List.zip_nil_right,
      List.mem_singleton] at hq
    subst hq
    exact ⟨rfl, 0, by decide, fun j hj => by
        cases j with
        | zero => exact absurd rfl hj
        | succ m => rfl,
      Car.mk "a" 0 0 2 Direction.HORIZONTAL, Car.mk "a" 1 0 2 Direction.HORIZONTAL,
      by decide, by decide, rfl, rfl, rfl, Or.inr ⟨rfl, by decide⟩⟩
  exact (C8_formatter_amended _ hp).1

/-- Claim C9: every successor yielded by the move generator is a tuple of
the same arity as the input state, with the vehicle at each tuple index
keeping the same name, size and direction; consequently every state
reachable from an initial configuration lists its vehicles in the initial
tuple order. -/
theorem C9_tuple_order_invariant :
    (∀ (s t : State) (L : List (List Car)), possible_moves s = Except.ok L → t ∈ L →
      t.length = s.length ∧ ∀ j : Nat,
        (t[j]?).map (fun c => (c.name, c.size, c.direction)) =
        (s[j]?).map (fun c => (c.name, c.size, c.direction))) ∧
    (∀ (s : State) (n : Nat) (t : State), ReachN s n t →
      t.length = s.length ∧ ∀ j : Nat,
        (t[j]?).map (fun c => (c.name, c.size, c.direction)) =
        (s[j]?).map (fun c => (c.name, c.size, c.direction))) :=
  ⟨fun _ _ L hL ht => step_fields ⟨L, hL, ht⟩, fun _ _ _ h => reachN_fields h⟩

/-- Witness for C9 on a concrete one-car state and its one-step successor. -/
theorem C9_tuple_order_invariant_witness :
    ([Car.mk "a" 0 1 2 Direction.HORIZONTAL] : State).length =
      ([Car.mk "a" 0 0 2 Direction.HORIZONTAL] : State).length ∧
    ∀ j : Nat,
      (([Car.mk "a" 0 1 2 Direction.HORIZONTAL] : State)[j]?).map
        (fun c => (c.name, c.size, c.direction)) =
      (([Car.mk "a" 0 0 2 Direction.HORIZONTAL] : State)[j]?).map
        (fun c => (c.name, c.size, c.direction)) :=
  C9_tuple_order_invariant.1 [Car.mk "a" 0 0 2 Direction.HORIZONTAL]
    [Car.mk "a" 0 1 2 Direction.HORIZONTAL]
    [[Car.mk "a" 0 1 2 Direction.HORIZONTAL]] (by decide) (by decide)

/-- Claim C10 (counterexample): board construction raises for a vehicle
whose row index 6 lies outside the board even though its direction is the
valid HORIZONTAL value, refuting "raises an error only if some vehicle's
direction is invalid". -/
theorem C10_oob_counterexample :
    get_board [Car.mk "a" 6 0 2 Direction.HORIZONTAL] = Except.error () ∧
    (Car.mk "a" 6 0 2 Direction.HORIZONTAL).direction = Direction.HORIZONTAL := by
  exact ⟨by decide, rfl⟩

/-- Claim C10 (amended): for states whose vehicles' footprints lie within
the board, construction raises an error iff some vehicle's direction is
neither horizontal nor vertical; overlapping in-bounds vehicles raise
nothing, and each cell of the produced grid holds the name of the last
vehicle in tuple order covering it (the empty marker when none does). -/
theorem C10_board_construction_amended :
    ∀ cars : State, (∀ c ∈ cars, CarInGrid c) →
      ((get_board cars = Except.error () ↔ ∃ c ∈ cars, c.direction = Direction.OTHER) ∧
      ∀ g, get_board cars = Except.ok g → ∀ p : Int × Int, inGrid p →
        getCell g p.1 p.2 = Except.ok
          (match (cars.filter fun c => decide (p ∈ cells c)).getLast? with
            | some c => c.name
            | none => EMPTY_CELL)) := by
  intro cars hgrid
  constructor
  · constructor
    · intro herr
      by_contra hno
      have hdirs : ∀ c ∈ cars,
          c.direction = Direction.HORIZONTAL ∨ c.direction = Direction.VERTICAL := by
        intro c hc
        cases hcd : c.direction with
        | HORIZONTAL => exact Or.inl rfl
        | VERTICAL => exact Or.inr rfl
        | OTHER => exact absurd ⟨c, hc, hcd⟩ hno
      obtain ⟨g, hg, _, _⟩ := get_board_spec (fun c hc => ⟨hdirs c hc, hgrid c hc⟩)
      rw [herr] at hg
      cases hg
    · intro hex
      exact get_board_err cars emptyBoard emptyBoard_wellSized hgrid hex
  · intro g hok p hp
    have hno : ¬ ∃ c ∈ cars, c.direction = Direction.OTHER := by
      intro hex
      have := get_board_err cars emptyBoard emptyBoard_wellSized hgrid hex
      rw [get_board] at hok
      rw [this] at hok
      cases hok
    have hdirs : ∀ c ∈ cars,
        c.direction = Direction.HORIZONTAL ∨ c.direction = Direction.VERTICAL := by
      intro c hc
      cases hcd : c.direction with
      | HORIZONTAL => exact Or.inl rfl
      | VERTICAL => exact Or.inr rfl
      | OTHER => exact absurd ⟨c, hc, hcd⟩ hno
    obtain ⟨g', hg', hgw, hcell⟩ := get_board_spec (fun c hc => ⟨hdirs c hc, hgrid c hc⟩)
    rw [hok] at hg'
    have hgg : g = g' := Except.ok.inj hg'
    subst hgg
    rw [getCell_ok hgw hp (hcell p hp), occupant_getLast]

/-- Witness for the C10 amended theorem: an overlapping two-car state
raises nothing and the contested cell (0,1) shows the later car's name. -/
theorem C10_board_construction_amended_witness :
    (∀ c ∈ ([Car.mk "a" 0 0 2 Direction.HORIZONTAL,
        Car.mk "b" 0 1 2 Direction.HORIZONTAL] : State), CarInGrid c) ∧
    ¬ get_board [Car.mk "a" 0 0 2 Direction.HORIZONTAL,
        Car.mk "b" 0 1 2 Direction.HORIZONTAL] = Except.error () := by
  refine ⟨by decide, fun h => ?_⟩
  have := (C10_board_construction_amended
    [Car.mk "a" 0 0 2 Direction.HORIZONTAL, Car.mk "b" 0 1 2 Direction.HORIZONTAL]
    (by decide)).1.mp h
  revert this
  decide

end RushHour

namespace RushHour

theorem reachN_trans {s t u : State} {m n : Nat} (h1 : ReachN s m t)
    (h2 : ReachN t n u) : ReachN s (m + n) u := by
  induction h1 with
  | refl s => simpa using h2
  | step hstep _ ih =>
    rename_i s' t' u' k _
    have hr := ReachN.step hstep (ih h2)
    rwa [show k + n + 1 = k + 1 + n by omega] at hr

theorem reachN_snoc {s t u : State} {n : Nat} (h : ReachN s n t) (hstep : Step t u) :
    ReachN s (n + 1) u :=
  reachN_trans h (ReachN.step hstep (ReachN.refl u))

theorem reachN_zero {s t : State} (h : ReachN s 0 t) : t = s := by
  cases h
  rfl

theorem reachN_succ {s u : State} {n : Nat} (h : ReachN s (n + 1) u) :
    ∃ w, Step s w ∧ ReachN w n u := by
  cases h with
  | step hstep hrest => exact ⟨_, hstep, hrest⟩

theorem dist_le {s t : State} {n : Nat} (h : ReachN s n t) : dist s t ≤ n :=
  Nat.sInf_le h

theorem dist_attained {s t : State} (h : Reachable s t) : ReachN s (dist s t) t :=
  Nat.sInf_mem h

theorem dist_self (s : State) : dist s s = 0 :=
  Nat.le_antisymm (dist_le (ReachN.refl s)) (Nat.zero_le _)

theorem dist_step {s t w : State} (hr : Reachable s t) (hstep : Step t w) :
    dist s w ≤ dist s t + 1 :=
  dist_le (reachN_snoc (dist_attained hr) hstep)

theorem chain_reach : ∀ (l : List State) (a : State), List.Chain' Step (a :: l) →
    ∀ t, (a :: l).getLast? = some t → ReachN a l.length t := by
  intro l
  induction l with
  | nil =>
    intro a _ t hlast
    have : a = t := Option.some.inj hlast
    rw [← this]
    exact ReachN.refl a
  | cons b l ih =>
    intro a hchain t hlast
    rw [List.chain'_cons] at hchain
    rw [List.getLast?_cons_cons] at hlast
    exact ReachN.step hchain.1 (ih b hchain.2 t hlast)

theorem chain_mem_reach : ∀ (l : List State) (a : State), List.Chain' Step (a :: l) →
    ∀ x ∈ a :: l, Reachable a x := by
  intro l
  induction l with
  | nil =>
    intro a _ x hx
    rw [List.mem_singleton] at hx
    exact ⟨0, hx ▸ ReachN.refl a⟩
  | cons b l ih =>
    intro a hchain x hx
    rw [List.chain'_cons] at hchain
    rcases List.mem_cons.mp hx with rfl | hx
    · exact ⟨0, ReachN.refl x⟩
    · obtain ⟨n, hn⟩ := ih b hchain.2 x hx
      exact ⟨n + 1, ReachN.step hchain.1 hn⟩

theorem isPath_reach {s₀ s : State} {hist : List State}
    (h : IsPath s₀ (hist ++ [s])) : ReachN s₀ hist.length s := by
  obtain ⟨hhead, hchain⟩ := h
  cases hh : hist ++ [s] with
  | nil => exact absurd hh (by simp)
  | cons a l =>
    rw [hh] at hhead hchain
    have ha : a = s₀ := Option.some.inj hhead
    subst ha
    have hlast : (a :: l).getLast? = some s := by
      rw [← hh]
      exact List.getLast?_concat _
    have hlen : l.length = hist.length := by
      have := congrArg List.length hh
      simp at this
      omega
    rw [← hlen]
    exact chain_reach l a hchain s hlast

theorem isPath_mem_reach {s₀ : State} {l : List State} (h : IsPath s₀ l) :
    ∀ x ∈ l, Reachable s₀ x := by
  obtain ⟨hhead, hchain⟩ := h
  cases l with
  | nil => intro x hx; cases hx
  | cons a t =>
    have ha : a = s₀ := Option.some.inj hhead
    subst ha
    exact chain_mem_reach t a hchain

theorem mapM_get_board_ok :
    ∀ l : List State, (∀ x ∈ l, ∃ g, get_board x = Except.ok g) →
      ∃ gs, l.mapM get_board = Except.ok gs := by
  intro l
  induction l with
  | nil => intro _; exact ⟨[], rfl⟩
  | cons x rest ih =>
    intro h
    obtain ⟨g, hg⟩ := h x (List.mem_cons_self _ _)
    obtain ⟨gs, hgs⟩ := ih (fun y hy => h y (List.mem_cons_of_mem _ hy))
    refine ⟨g :: gs, ?_⟩
    rw [List.mapM_cons, hg, hgs]
    rfl

theorem wf_get_board_ok {s : State} (hwf : WellFormed s) :
    ∃ g, get_board s = Except.ok g := by
  obtain ⟨g, hg, _, _⟩ := get_board_spec (fun c hc => ⟨(hwf.2 c hc).1, (hwf.1.1 c hc).2⟩)
  exact ⟨g, hg⟩

end RushHour

namespace RushHour

theorem listProd_mem {α : Type} :
    ∀ (Ls : List (List α)) (t : List α),
      t ∈ listProd Ls ↔ List.Forall₂ (fun a l => a ∈ l) t Ls := by
  intro Ls
  induction Ls with
  | nil =>
    intro t
    rw [List.forall₂_nil_right_iff]
    simp [listProd]
  | cons l ls ih =>
    intro t
    unfold listProd
    rw [List.mem_flatMap]
    constructor
    · rintro ⟨a, ha, hmem⟩
      obtain ⟨t', ht', rfl⟩ := List.mem_map.mp hmem
      exact List.Forall₂.cons ha ((ih t').mp ht')
    · intro hf
      cases hf with
      | cons hhead htail =>
        exact ⟨_, hhead, List.mem_map.mpr ⟨_, (ih _).mpr htail, rfl⟩⟩

theorem mem_gridPositions {p : Int × Int} :
    p ∈ gridPositions ↔ 0 ≤ p.1 ∧ p.1 < 6 ∧ 0 ≤ p.2 ∧ p.2 < 6 := by
  unfold gridPositions
  rw [List.mem_flatMap]
  constructor
  · rintro ⟨a, ha, hmem⟩
    obtain ⟨b, hb, rfl⟩ := List.mem_map.mp hmem
    rw [List.mem_range] at ha hb
    simp only
    omega
  · intro hb
    refine ⟨p.1.toNat, List.mem_range.mpr (by omega),
      List.mem_map.mpr ⟨p.2.toNat, List.mem_range.mpr (by omega), ?_⟩⟩
    rw [Prod.mk.injEq]
    constructor <;> omega

theorem reach_mem_stateSpace {s₀ t : State} {n : Nat} (hwf : WellFormed s₀)
    (h : ReachN s₀ n t) : t ∈ stateSpace s₀ := by
  obtain ⟨hlen, hfields⟩ := reachN_fields h
  have hwt := reachN_preserves_WellFormed hwf h
  unfold stateSpace
  rw [listProd_mem, List.forall₂_map_right_iff, List.forall₂_iff_get]
  refine ⟨hlen.symm ▸ rfl, ?_⟩
  · intro i h1 h2
    set c := t.get ⟨i, h1⟩ with hc
    set c₀ := s₀.get ⟨i, h2⟩ with hc₀
    have hcf := hfields i
    rw [List.getElem?_eq_getElem h1, List.getElem?_eq_getElem h2] at hcf
    simp only [Option.map] at hcf
    have htriple : (c.name, c.size, c.direction) = (c₀.name, c₀.size, c₀.direction) :=
      Option.some.inj hcf
    have hname : c.name = c₀.name := congrArg Prod.fst htriple
    have hsize : c.size = c₀.size := congrArg (fun q => q.2.1) htriple
    have hdir : c.direction = c₀.direction := congrArg (fun q => q.2.2) htriple
    have hcmem : c ∈ t := by
      rw [hc]
      exact t.get_mem i h1
    have hgrid : CarInGrid c := (hwt.1.1 c hcmem).2
    have hsz : 1 ≤ c.size := (hwt.2 c hcmem).2
    have hbounds : 0 ≤ c.x ∧ c.x < 6 ∧ 0 ≤ c.y ∧ c.y < 6 := by
      rcases (hwt.2 c hcmem).1 with hd | hd
      · have := carH_bounds hd hgrid hsz
        omega
      · have := carV_bounds hd hgrid hsz
        omega
    refine List.mem_map.mpr ⟨(c.x, c.y), mem_gridPositions.mpr (by simpa using hbounds), ?_⟩
    unfold placeCar
    rw [← hname, ← hsize, ← hdir]

theorem nodup_subset_length_le {l L : List State} (hn : l.Nodup)
    (hsub : ∀ x ∈ l, x ∈ L) : l.length ≤ L.length := by
  calc l.length = l.toFinset.card := (List.toFinset_card_of_nodup hn).symm
    _ ≤ L.toFinset.card := Finset.card_le_card (fun x hx => by
        rw [List.mem_toFinset] at hx ⊢
        exact hsub x hx)
    _ ≤ L.length := List.toFinset_card_le L

theorem loop_nil (fuel : Nat) (seen : List State) :
    loop (fuel + 1) [] seen = some (RunOutcome.finished []) := rfl

theorem loop_skip {board : List Car} {hist : List (List Car)} {rest : List Entry}
    {seen : List State} (h : board ∈ seen) (fuel : Nat) :
    loop (fuel + 1) ((board, hist) :: rest) seen = loop fuel rest seen := by
  conv_lhs => rw [loop]
  rw [if_pos h]

theorem loop_goal {board : List Car} {hist : List (List Car)} {rest : List Entry}
    {seen : List State} (h1 : board ∉ seen) (h2 : ENDPOINT ∈ board)
    {gs : List Board} (h3 : (hist ++ [board]).mapM get_board = Except.ok gs) (fuel : Nat) :
    loop (fuel + 1) ((board, hist) :: rest) seen =
      some (RunOutcome.finished (print_moves (hist ++ [board]))) := by
  conv_lhs => rw [loop]
  rw [if_neg h1]
  simp only [if_pos h2, h3]

theorem loop_expand {board : List Car} {hist : List (List Car)} {rest : List Entry}
    {seen : List State} (h1 : board ∉ seen) (h2 : ENDPOINT ∉ board)
    {moves : List (List Car)} (h3 : possible_moves board = Except.ok moves) (fuel : Nat) :
    loop (fuel + 1) ((board, hist) :: rest) seen =
      loop fuel (rest ++ moves.map fun m => (m, hist ++ [board])) (board :: seen) := by
  conv_lhs => rw [loop]
  rw [if_neg h1]
  simp only [if_neg h2, h3]

end RushHour

namespace RushHour

theorem inv_initial (s₀ : State) : BfsInv s₀ [(s₀, [])] [] := by
  refine ⟨?_, ?_, ?_, ?_, ?_⟩
  · intro e he
    rw [List.mem_singleton] at he
    subst he
    exact ⟨rfl, List.chain'_singleton s₀⟩
  · refine ⟨0, [(s₀, [])], [], by simp, ?_, ?_, ?_⟩
    · intro e he
      rw [List.mem_singleton] at he
      subst he
      rfl
    · intro e he
      cases he
    · intro t ht
      cases ht
  · intro t hreach htseen
    refine ⟨(s₀, []), List.mem_singleton.mpr rfl, List.not_mem_nil s₀, ?_, ?_, ?_⟩
    · simp [dist_self]
    · rw [dist_self]
      exact Nat.zero_le _
    · rw [dist_self, Nat.sub_zero]
      exact dist_attained hreach
  · intro t ht
    cases ht
  · exact List.nodup_nil

theorem inv_skip {s₀ : State} {Q : List Entry} {seen : List State}
    (inv : BfsInv s₀ Q seen) {s : List Car} {hist : List (List Car)} {rest : List Entry}
    (hQ : Q = (s, hist) :: rest) (hs : s ∈ seen) : BfsInv s₀ rest seen := by
  obtain ⟨hpath, hshape, hcover, hnogoal, hnodup⟩ := inv
  subst hQ
  refine ⟨?_, ?_, ?_, hnogoal, hnodup⟩
  · intro e he
    exact hpath e (List.mem_cons_of_mem _ he)
  · obtain ⟨d, A, B, hAB, hA, hB, hseen⟩ := hshape
    cases A with
    | nil =>
      rw [List.nil_append] at hAB
      cases B with
      | nil => cases hAB
      | cons b B' =>
        have hb : b = (s, hist) ∧ rest = B' := by
          rw [List.cons.injEq] at hAB
          exact ⟨hAB.1.symm, hAB.2⟩
        refine ⟨d + 1, B', [], by rw [List.append_nil, hb.2], ?_, ?_, ?_⟩
        · intro e he
          exact hB e (List.mem_cons_of_mem _ he)
        · intro e he
          cases he
        · intro t ht
          exact ⟨(hseen t ht).1, Nat.le_succ_of_le (hseen t ht).2⟩
    | cons a A' =>
      have ha : a = (s, hist) ∧ rest = A' ++ B := by
        rw [List.cons_append, List.cons.injEq] at hAB
        exact ⟨hAB.1.symm, hAB.2⟩
      refine ⟨d, A', B, ha.2, ?_, hB, hseen⟩
      intro e he
      exact hA e (List.mem_cons_of_mem _ he)
  · intro t hreach htseen
    obtain ⟨e, he, he1, he2, he3, he4⟩ := hcover t hreach htseen
    rcases List.mem_cons.mp he with rfl | he
    · exact absurd hs he1
    · exact ⟨e, he, he1, he2, he3, he4⟩

theorem shape_head_min {s₀ : State} {Q : List Entry} {seen : List State}
    (inv : BfsInv s₀ Q seen) {e : Entry} {rest : List Entry} (hQ : Q = e :: rest) :
    (∀ q ∈ Q, e.2.length ≤ q.2.length) ∧ (∀ u ∈ seen, dist s₀ u ≤ e.2.length) := by
  obtain ⟨d, A, B, hAB, hA, hB, hseen⟩ := inv.shape
  cases A with
  | nil =>
    rw [List.nil_append] at hAB
    have hde : e.2.length = d + 1 := hB e (by rw [← hAB, hQ]; exact List.mem_cons_self _ _)
    constructor
    · intro q hq
      rw [hAB] at hq
      rw [hde, hB q hq]
    · intro u hu
      rw [hde]
      exact Nat.le_succ_of_le (hseen u hu).2
  | cons a A' =>
    have ha : a = e := by
      rw [hQ, List.cons_append, List.cons.injEq] at hAB
      exact hAB.1.symm
    have hde : e.2.length = d := by
      rw [← ha]
      exact hA a (List.mem_cons_self _ _)
    constructor
    · intro q hq
      rw [hAB] at hq
      rcases List.mem_append.mp hq with hq | hq
      · rw [hde, hA q hq]
      · rw [hde, hB q hq]
        omega
    · intro u hu
      rw [hde]
      exact (hseen u hu).2

theorem pop_dist {s₀ : State} {Q : List Entry} {seen : List State}
    (inv : BfsInv s₀ Q seen) {s : List Car} {hist : List (List Car)} {rest : List Entry}
    (hQ : Q = (s, hist) :: rest) (hs : s ∉ seen) :
    dist s₀ s = hist.length ∧ Reachable s₀ s := by
  have hpe := inv.path (s, hist) (by rw [hQ]; exact List.mem_cons_self _ _)
  have hreach : ReachN s₀ hist.length s := isPath_reach hpe
  have h1 : dist s₀ s ≤ hist.length := dist_le hreach
  obtain ⟨e, he, he1, he2, he3, he4⟩ := inv.cover s ⟨_, hreach⟩ hs
  have hmin := (shape_head_min inv hQ).1 e he
  simp only at hmin
  constructor
  · omega
  · exact ⟨_, hreach⟩

theorem pop_goal_min {s₀ : State} {Q : List Entry} {seen : List State}
    (inv : BfsInv s₀ Q seen) {s : List Car} {hist : List (List Car)} {rest : List Entry}
    (hQ : Q = (s, hist) :: rest) (hs : s ∉ seen) (hgoal : IsGoal s) :
    minMoves s₀ = dist s₀ s ∧ Solvable s₀ := by
  obtain ⟨hd, hreach⟩ := pop_dist inv hQ hs
  have hsolv : Solvable s₀ := ⟨s, hreach, hgoal⟩
  have hne : { n | ∃ t, ReachN s₀ n t ∧ IsGoal t }.Nonempty :=
    ⟨dist s₀ s, s, dist_attained hreach, hgoal⟩
  refine ⟨Nat.le_antisymm (Nat.sInf_le ⟨s, dist_attained hreach, hgoal⟩) ?_, hsolv⟩
  obtain ⟨g, hg, hgg⟩ := Nat.sInf_mem hne
  have hdg : dist s₀ g ≤ minMoves s₀ := dist_le hg
  have hsg : dist s₀ s ≤ dist s₀ g := by
    by_cases hgseen : g ∈ seen
    · exact absurd hgg (inv.nogoal g hgseen)
    · obtain ⟨e, he, he1, he2, he3, he4⟩ := inv.cover g ⟨_, hg⟩ hgseen
      have hmin := (shape_head_min inv hQ).1 e he
      simp only at hmin
      rw [hd]
      omega
  exact hsg.trans hdg

theorem inv_nil_unsolvable {s₀ : State} {seen : List State}
    (inv : BfsInv s₀ [] seen) : ¬ Solvable s₀ := by
  rintro ⟨g, hreach, hgoal⟩
  by_cases hgseen : g ∈ seen
  · exact inv.nogoal g hgseen hgoal
  · obtain ⟨e, he, _⟩ := inv.cover g hreach hgseen
    cases he

end RushHour

namespace RushHour

theorem inv_expand {s₀ : State} {Q : List Entry} {seen : List State}
    (inv : BfsInv s₀ Q seen) {s : List Car} {hist : List (List Car)} {rest : List Entry}
    (hQ : Q = (s, hist) :: rest) (hs : s ∉ seen) (hgoal : ¬ IsGoal s)
    {moves : List (List Car)} (hpm : possible_moves s = Except.ok moves) :
    BfsInv s₀ (rest ++ moves.map fun m => (m, hist ++ [s])) (s :: seen) := by
  obtain ⟨hd_eq, hreach_s⟩ := pop_dist inv hQ hs
  have hheadmin := shape_head_min inv hQ
  have hseen_le : ∀ u ∈ seen, dist s₀ u ≤ dist s₀ s := by
    intro u hu
    rw [hd_eq]
    exact hheadmin.2 u hu
  have hpse := inv.path (s, hist) (by rw [hQ]; exact List.mem_cons_self _ _)
  obtain ⟨hhead, hchain⟩ := hpse
  refine ⟨?_, ?_, ?_, ?_, ?_⟩
  · -- path
    intro e he
    rcases List.mem_append.mp he with he | he
    · exact inv.path e (by rw [hQ]; exact List.mem_cons_of_mem _ he)
    · obtain ⟨m, hm, rfl⟩ := List.mem_map.mp he
      refine ⟨?_, ?_⟩
      · show ((hist ++ [s]) ++ [m]).head? = some s₀
        rw [List.head?_append, hhead]
        rfl
      · show List.Chain' Step ((hist ++ [s]) ++ [m])
        rw [List.chain'_append]
        refine ⟨hchain, List.chain'_singleton m, ?_⟩
        intro x hx y hy
        rw [List.getLast?_concat] at hx
        have hxs : s = x := Option.some.inj hx
        have hym : m = y := Option.some.inj hy
        subst hxs
        subst hym
        exact ⟨moves, hpm, hm⟩
  · -- shape
    obtain ⟨d, A, B, hAB, hA, hB, hseen⟩ := inv.shape
    rw [hQ] at hAB
    cases A with
    | nil =>
      rw [List.nil_append] at hAB
      cases B with
      | nil => cases hAB
      | cons b B' =>
        rw [List.cons.injEq] at hAB
        have hb1 : b = (s, hist) := hAB.1.symm
        have hb2 : rest = B' := hAB.2
        have hdep : hist.length = d + 1 := by
          have := hB b (List.mem_cons_self _ _)
          rw [hb1] at this
          exact this
        refine ⟨d + 1, B', moves.map fun m => (m, hist ++ [s]), by rw [hb2], ?_, ?_, ?_⟩
        · intro e he
          exact hB e (List.mem_cons_of_mem _ he)
        · intro e he
          obtain ⟨m, hm, rfl⟩ := List.mem_map.mp he
          simp only [List.length_append, List.length_singleton, hdep]
        · intro t ht
          rcases List.mem_cons.mp ht with rfl | ht
          · refine ⟨hreach_s, ?_⟩
            rw [hd_eq, hdep]
          · exact ⟨(hseen t ht).1, Nat.le_succ_of_le (hseen t ht).2⟩
    | cons a A' =>
      rw [List.cons_append, List.cons.injEq] at hAB
      have ha1 : a = (s, hist) := hAB.1.symm
      have ha2 : rest = A' ++ B := hAB.2
      have hdep : hist.length = d := by
        have := hA a (List.mem_cons_self _ _)
        rw [ha1] at this
        exact this
      refine ⟨d, A', B ++ moves.map fun m => (m, hist ++ [s]),
        by rw [ha2, List.append_assoc], ?_, ?_, ?_⟩
      · intro e he
        exact hA e (List.mem_cons_of_mem _ he)
      · intro e he
        rcases List.mem_append.mp he with he | he
        · exact hB e he
        · obtain ⟨m, hm, rfl⟩ := List.mem_map.mp he
          simp only [List.length_append, List.length_singleton, hdep]
      · intro t ht
        rcases List.mem_cons.mp ht with rfl | ht
        · refine ⟨hreach_s, ?_⟩
          rw [hd_eq, hdep]
        · exact hseen t ht
  · -- cover
    intro t hreach htseen
    have hts : t ≠ s := by
      intro hh
      exact htseen (hh ▸ List.mem_cons_self _ _)
    have htsn : t ∉ seen := fun hh => htseen (List.mem_cons_of_mem _ hh)
    obtain ⟨e, he, he1, he2, he3, he4⟩ := inv.cover t hreach htsn
    by_cases hes : e.1 = s
    · -- re-cover through a child of s
      rw [hes] at he2 he3 he4
      have hlt : dist s₀ s < dist s₀ t := by
        rcases Nat.lt_or_ge (dist s₀ s) (dist s₀ t) with h | h
        · exact h
        · exfalso
          have hdd : dist s₀ t = dist s₀ s := by omega
          rw [hdd, Nat.sub_self] at he4
          exact hts (reachN_zero he4)
      obtain ⟨k', hk'⟩ : ∃ k', dist s₀ t - dist s₀ s = k' + 1 :=
        ⟨dist s₀ t - dist s₀ s - 1, by omega⟩
      rw [hk'] at he4
      obtain ⟨w, hsw, hwt⟩ := reachN_succ he4
      have hwmoves : w ∈ moves := by
        obtain ⟨L, hL, hwL⟩ := hsw
        rw [hpm] at hL
        rw [← Except.ok.inj hL] at hwL
        exact hwL
      have hwreach : Reachable s₀ w := ⟨_, reachN_snoc (dist_attained hreach_s) hsw⟩
      have hwle : dist s₀ w ≤ dist s₀ s + 1 := dist_step hreach_s hsw
      have hwge : dist s₀ s + 1 ≤ dist s₀ w := by
        have htr := reachN_trans (dist_attained hwreach) hwt
        have hle := dist_le htr
        omega
      have hwd : dist s₀ w = dist s₀ s + 1 := by omega
      have hwns : w ≠ s := by
        intro hh
        rw [hh] at hwd
        omega
      have hwnseen : w ∉ seen := by
        intro hh
        have := hseen_le w hh
        omega
      refine ⟨(w, hist ++ [s]), List.mem_append.mpr (Or.inr (List.mem_map.mpr ⟨w, hwmoves, rfl⟩)),
        ?_, ?_, ?_, ?_⟩
      · intro hh
        rcases List.mem_cons.mp hh with hh | hh
        · exact hwns hh
        · exact hwnseen hh
      · simp only [List.length_append, List.length_singleton]
        omega
      · simp only
        omega
      · simp only
        have : dist s₀ t - dist s₀ w = k' := by omega
        rw [this]
        exact hwt
    · -- the old entry survives
      have hemem : e ∈ rest := by
        rw [hQ] at he
        rcases List.mem_cons.mp he with hh | hh
        · exfalso
          apply hes
          rw [hh]
        · exact hh
      refine ⟨e, List.mem_append.mpr (Or.inl hemem), ?_, he2, he3, he4⟩
      intro hh
      rcases List.mem_cons.mp hh with hh | hh
      · exact hes hh
      · exact he1 hh
  · -- nogoal
    intro t ht
    rcases List.mem_cons.mp ht with rfl | ht
    · exact hgoal
    · exact inv.nogoal t ht
  · -- nodup
    exact List.nodup_cons.mpr ⟨hs, inv.nodup⟩

end RushHour

namespace RushHour

theorem loop_correct {s₀ : State} (hwf : WellFormed s₀) :
    ∀ (m : Nat) (Q : List Entry) (seen : List State),
      (stateSpace s₀).length + 1 - seen.length ≤ m →
      BfsInv s₀ Q seen →
      ∃ (fuel : Nat) (r : RunOutcome), loop fuel Q seen = some r ∧
        ((∃ hist g, r = RunOutcome.finished (print_moves hist) ∧ IsPath s₀ hist ∧
            hist.getLast? = some g ∧ IsGoal g ∧ hist.length = minMoves s₀ + 1) ∨
          (r = RunOutcome.finished [] ∧ ¬ Solvable s₀)) := by
  intro m
  induction m with
  | zero =>
    intro Q seen hb hinv
    exfalso
    have hsub : ∀ u ∈ seen, u ∈ stateSpace s₀ := by
      intro u hu
      obtain ⟨d, A, B, _, _, _, hseen⟩ := hinv.shape
      obtain ⟨⟨n, hn⟩, _⟩ := hseen u hu
      exact reach_mem_stateSpace hwf hn
    have := nodup_subset_length_le hinv.nodup hsub
    omega
  | succ m ihm =>
    intro Q seen
    induction Q with
    | nil =>
      intro _ hinv
      exact ⟨1, RunOutcome.finished [], loop_nil 0 seen, Or.inr ⟨rfl, inv_nil_unsolvable hinv⟩⟩
    | cons e rest ihq =>
      intro hb hinv
      obtain ⟨s, hist⟩ := e
      by_cases hseen : s ∈ seen
      · obtain ⟨fuel, r, hrun, hgood⟩ := ihq hb (inv_skip hinv rfl hseen)
        refine ⟨fuel + 1, r, ?_, hgood⟩
        rw [loop_skip hseen fuel]
        exact hrun
      · by_cases hgoal : IsGoal s
        · obtain ⟨hd1, _⟩ := pop_dist hinv rfl hseen
          obtain ⟨hm1, _⟩ := pop_goal_min hinv rfl hseen hgoal
          have hpse := hinv.path (s, hist) (List.mem_cons_self _ _)
          have hall : ∀ x ∈ hist ++ [s], ∃ g, get_board x = Except.ok g := by
            intro x hx
            obtain ⟨n, hn⟩ := isPath_mem_reach hpse x hx
            exact wf_get_board_ok (reachN_preserves_WellFormed hwf hn)
          obtain ⟨gs, hgs⟩ := mapM_get_board_ok _ hall
          refine ⟨1, RunOutcome.finished (print_moves (hist ++ [s])),
            loop_goal hseen hgoal hgs 0, Or.inl ?_⟩
          refine ⟨hist ++ [s], s, rfl, hpse, List.getLast?_concat _, hgoal, ?_⟩
          simp only [List.length_append, List.length_singleton]
          omega
        · obtain ⟨hd1, hreach_s⟩ := pop_dist hinv rfl hseen
          have hwfs : WellFormed s := by
            obtain ⟨n, hn⟩ := hreach_s
            exact reachN_preserves_WellFormed hwf hn
          have hpm := possible_moves_spec hwfs
          have hinv' := inv_expand hinv rfl hseen hgoal hpm
          have hb' : (stateSpace s₀).length + 1 - (s :: seen).length ≤ m := by
            simp only [List.length_cons]
            omega
          obtain ⟨fuel, r, hrun, hgood⟩ := ihm _ _ hb' hinv'
          refine ⟨fuel + 1, r, ?_, hgood⟩
          rw [loop_expand hseen hgoal hpm fuel]
          exact hrun

end RushHour

namespace RushHour


theorem mem_of_getLast?_eq {l : List State} {g : State}
    (h : l.getLast? = some g) : g ∈ l := by
  obtain ⟨hne, rfl⟩ := List.mem_getLast?_eq_getLast h
  exact List.getLast_mem hne

theorem unsolvable_single : ¬ Solvable [Car.mk "a" 0 0 2 Direction.HORIZONTAL] := by
  rintro ⟨t, ⟨n, hn⟩, hg⟩
  obtain ⟨hlen, hf⟩ := reachN_fields hn
  obtain ⟨j, hj, hjE⟩ := List.getElem_of_mem hg
  have h0 : j = 0 := by
    simp only [List.length_singleton] at hlen
    omega
  subst h0
  have hx := hf 0
  rw [List.getElem?_eq_getElem hj, hjE] at hx
  simp [ENDPOINT] at hx

/-- C1: for every well-formed solvable initial configuration, the BFS of
`run` terminates at a goal state, the accumulated history is a path of
generated moves ending in a goal, its length is one more than the minimum
number of single-cell moves, and the reported step count (the first logged
line) is exactly that minimum. -/
theorem C1_bfs_shortest {s₀ : State} (hwf : WellFormed s₀) (hsol : Solvable s₀) :
    ∃ (fuel : Nat) (hist : List State) (g : State),
      run fuel s₀ = some (RunOutcome.finished (print_moves hist)) ∧
      IsPath s₀ hist ∧ hist.getLast? = some g ∧ IsGoal g ∧
      hist.length = minMoves s₀ + 1 ∧
      (print_moves hist).head? =
        some ("Total number of steps: " ++ toString (minMoves s₀ : Int)) := by
  obtain ⟨fuel, r, hrun, hgood⟩ := loop_correct hwf ((stateSpace s₀).length + 1)
    [(s₀, [])] [] (by simp) (inv_initial s₀)
  rcases hgood with ⟨hist, g, hr, hpath, hlast, hg, hlen⟩ | ⟨_, hns⟩
  · refine ⟨fuel, hist, g, ?_, hpath, hlast, hg, hlen, ?_⟩
    · rw [hr] at hrun
      exact hrun
    · have hm : ((hist.length : Int) - 1) = (minMoves s₀ : Int) := by
        rw [hlen]
        push_cast
        ring
      rw [print_moves, hm]
      rfl
  · exact absurd hsol hns

theorem C1_bfs_shortest_witness :
    ∃ (fuel : Nat) (hist : List State) (g : State),
      run fuel [ENDPOINT] = some (RunOutcome.finished (print_moves hist)) ∧
      IsPath [ENDPOINT] hist ∧ hist.getLast? = some g ∧ IsGoal g ∧
      hist.length = minMoves [ENDPOINT] + 1 ∧
      (print_moves hist).head? =
        some ("Total number of steps: " ++ toString (minMoves [ENDPOINT] : Int)) :=
  C1_bfs_shortest (by decide) ⟨[ENDPOINT], ⟨0, ReachN.refl _⟩, by decide⟩

/-- C5 counterexample: on an unsolvable configuration (a single horizontal
car named "a", which can never contain the target car "r"), `run` terminates
by queue exhaustion returning `None` with no log output at all — the
observable outcome `finished []`.  There is no explicit "no solution"
result value: the Python function falls off the `while` loop and implicitly
returns `None`, exactly as it returns `None` after a success (where the
difference is only the logged lines, as the solved-at-start run shows). -/
theorem C5_silent_failure_counterexample :
    run 16 [Car.mk "a" 0 0 2 Direction.HORIZONTAL] =
      some (RunOutcome.finished []) ∧
    ¬ Solvable [Car.mk "a" 0 0 2 Direction.HORIZONTAL] ∧
    run 2 [ENDPOINT] =
      some (RunOutcome.finished ["Total number of steps: 0"]) :=
  ⟨by decide, unsolvable_single, by decide⟩

/-- C5 amended: on every well-formed unsolvable configuration the solver
does terminate normally once the queue empties (no exception), but the only
observable outcome is the absence of any logged output; the function's
return value is the same `None` as on success. -/
theorem C5_queue_exhaustion_amended {s₀ : State} (hwf : WellFormed s₀)
    (hns : ¬ Solvable s₀) :
    ∃ fuel, run fuel s₀ = some (RunOutcome.finished []) := by
  obtain ⟨fuel, r, hrun, hgood⟩ := loop_correct hwf ((stateSpace s₀).length + 1)
    [(s₀, [])] [] (by simp) (inv_initial s₀)
  rcases hgood with ⟨hist, g, _, hpath, hlast, hg, _⟩ | ⟨hr, _⟩
  · exact absurd ⟨g, isPath_mem_reach hpath g (mem_of_getLast?_eq hlast), hg⟩ hns
  · exact ⟨fuel, hr ▸ hrun⟩

theorem C5_queue_exhaustion_amended_witness :
    ∃ fuel, run fuel [Car.mk "a" 0 0 2 Direction.HORIZONTAL] =
      some (RunOutcome.finished []) :=
  C5_queue_exhaustion_amended (by decide) unsolvable_single

end RushHour
